import Mathlib

/-!
Shallow embedding of the CeresDB compaction scheduler
(src/analytic_engine/src/compaction/scheduler.rs) and of the hybrid SST
codec (src/analytic_engine/src/sst/parquet/encoding.rs), together with
theorems settling the claims about them.

Conventions used throughout:
* machine integers (`usize`, `i32`, `u64`) are modelled as `Nat`/`Int`
  with explicit `% 2 ^ w` wherever wrap-around can matter;
* stateful Rust code becomes explicit state passing;
* a Rust function that can panic (a failed `assert!`) or return `Err`
  becomes an `Option`/`Except` returning function.
-/

namespace CeresDB

/-! ## Memory limit (scheduler.rs, `MemoryLimit` / `MemoryUsageToken`) -/

/-- Word size of `usize`/`AtomicUsize` (64-bit platform). -/
def USIZE_MOD : Nat := 2 ^ 64

/-- Model of `MemoryLimit { usage: Arc<AtomicUsize>, limit: usize }`.
The atomic counter becomes a plain field updated by state passing (the
scheduler loop is single-consumer). -/
structure MemoryLimit where
  usage : Nat
  limit : Nat
  deriving Repr, DecidableEq

/-- Model of `MemoryUsageToken { global_usage, applied_usage }`; the
`Arc` pointer to the shared counter is implicit in the state passing. -/
structure MemoryUsageToken where
  applied_usage : Nat
  deriving Repr, DecidableEq

/-- `Drop for MemoryUsageToken`: `global_usage.fetch_sub(applied_usage, Relaxed)`.
`fetch_sub` on `usize` wraps, hence the `% USIZE_MOD` arithmetic. -/
def MemoryUsageToken.drop (t : MemoryUsageToken) (m : MemoryLimit) : MemoryLimit :=
  { m with usage := (m.usage + (USIZE_MOD - t.applied_usage % USIZE_MOD)) % USIZE_MOD }

/-- `MemoryLimit::apply_token`: `usage.fetch_add(bytes, Relaxed)` and build
the token recording `bytes`. -/
def MemoryLimit.apply_token (m : MemoryLimit) (bytes : Nat) :
    MemoryLimit × MemoryUsageToken :=
  ({ m with usage := (m.usage + bytes) % USIZE_MOD }, { applied_usage := bytes })

/-- `MemoryLimit::is_exceeded`: `usage.load(Relaxed) > limit`. -/
def MemoryLimit.is_exceeded (m : MemoryLimit) : Bool :=
  m.limit < m.usage

/-- `MemoryLimit::try_apply_token`: apply first, check afterwards; on
excess the freshly built token is dropped (running its `Drop`), which
restores the counter, and `None` is returned. -/
def MemoryLimit.try_apply_token (m : MemoryLimit) (bytes : Nat) :
    MemoryLimit × Option MemoryUsageToken :=
  let am := m.apply_token bytes
  if am.1.is_exceeded then
    (am.2.drop am.1, none)
  else
    (am.1, some am.2)

/-- Sequentially apply `try_apply_token` for each element of `bytes`,
returning the final state, the per-apply outcome (`true` = token
returned), and the list of returned tokens (scenario S1 keeps every
returned token until the end). -/
def MemoryLimit.applySeq (m : MemoryLimit) :
    List Nat → MemoryLimit × List Bool × List MemoryUsageToken
  | [] => (m, [], [])
  | b :: bs =>
    let step := m.try_apply_token b
    let rest := step.1.applySeq bs
    match step.2 with
    | some tok => (rest.1, true :: rest.2.1, tok :: rest.2.2)
    | none => (rest.1, false :: rest.2.1, rest.2.2)

/-- Drop every token in the list (order is irrelevant for the counter). -/
def MemoryLimit.dropAll (m : MemoryLimit) : List MemoryUsageToken → MemoryLimit
  | [] => m
  | t :: ts => (t.drop m).dropAll ts

/-! ## Deduplicating request queue (scheduler.rs, `RequestQueue`) -/

variable {K : Type} {V : Type} [DecidableEq K]

/-- Lookup in an association list, modelling `HashMap::get`/the value
returned by `HashMap::insert`/`HashMap::remove` for a present key. -/
def alLookup : List (K × V) → K → Option V
  | [], _ => none
  | p :: rest, k => if p.1 = k then some p.2 else alLookup rest k

/-- `HashMap::insert(key, value)`: replace in place when the key is
present, append a fresh binding otherwise. -/
def alInsert (l : List (K × V)) (k : K) (v : V) : List (K × V) :=
  if (alLookup l k).isSome then
    l.map (fun p => if p.1 = k then (k, v) else p)
  else
    l ++ [(k, v)]

/-- `HashMap::remove(key)`: drop the binding of `k`. -/
def alRemove (l : List (K × V)) (k : K) : List (K × V) :=
  l.filter (fun p => decide (p.1 ≠ k))

/-- Model of `RequestQueue { keys: VecDeque<K>, values: HashMap<K, V> }`.
The deque front is the head of `keys`; the hash map is an association
list. -/
structure RequestQueue (K V : Type) where
  keys : List K
  values : List (K × V)
  deriving Repr, DecidableEq

/-- `RequestQueue::default()`. -/
def RequestQueue.empty : RequestQueue K V := { keys := [], values := [] }

/-- `RequestQueue::push_back`: `values.insert` first; only when the key
was absent is it appended to the back of `keys` (so a replace keeps the
original queue position).  Returns the updated queue and the `bool` the
Rust function returns (`true` = newly inserted). -/
def RequestQueue.push_back (q : RequestQueue K V) (key : K) (value : V) :
    RequestQueue K V × Bool :=
  if (alLookup q.values key).isSome then
    ({ q with values := alInsert q.values key value }, false)
  else
    ({ keys := q.keys ++ [key], values := alInsert q.values key value }, true)

/-- `RequestQueue::pop_front`: pop the head key of the deque and remove
its binding, returning the removed value. -/
def RequestQueue.pop_front (q : RequestQueue K V) :
    Option V × RequestQueue K V :=
  match q.keys with
  | [] => (none, q)
  | k :: rest => (alLookup q.values k, { keys := rest, values := alRemove q.values k })

/-- `RequestQueue::len`: `values.len()`. -/
def RequestQueue.len (q : RequestQueue K V) : Nat := q.values.length

/-- `RequestQueue::is_empty`: `values.is_empty()`. -/
def RequestQueue.isEmptyQ (q : RequestQueue K V) : Bool := q.values.isEmpty

/-- Apply a sequence of `push_back` operations (left to right). -/
def RequestQueue.pushList (q : RequestQueue K V) (ps : List (K × V)) :
    RequestQueue K V :=
  ps.foldl (fun q p => (q.push_back p.1 p.2).1) q

/-- Repeatedly call `pop_front` until it returns `None`, collecting the
returned values (the two queue fields are passed separately so the
recursion is structural on the key deque; each step is exactly
`pop_front`). -/
def popAllGo : List K → List (K × V) → List V
  | [], _ => []
  | k :: rest, vs =>
    match alLookup vs k with
    | some v => v :: popAllGo rest (alRemove vs k)
    | none => []

/-- Repeatedly call `pop_front` until it returns `None`, collecting the
returned values. -/
def RequestQueue.popAll (q : RequestQueue K V) : List V :=
  popAllGo q.keys q.values

/-- The queue invariant from the spec (§3 Admission queue): the key
deque and the map always hold the same key set, each exactly once.
Every queue reachable from `RequestQueue::default()` satisfies it. -/
def RequestQueue.WF (q : RequestQueue K V) : Prop :=
  q.keys.Nodup ∧ (q.values.map Prod.fst).Nodup ∧
    (∀ k ∈ q.keys, k ∈ q.values.map Prod.fst) ∧
    (∀ k ∈ q.values.map Prod.fst, k ∈ q.keys)

/-- First-insertion order of the distinct keys of a push sequence,
starting from the already-present keys `ks`. -/
def firstKeys : List (K × V) → List K → List K
  | [], ks => ks
  | p :: ps, ks => firstKeys ps (if p.1 ∈ ks then ks else ks ++ [p.1])

/-- The last value pushed for key `k` in the push sequence, if any. -/
def lastVal : List (K × V) → K → Option V
  | [], _ => none
  | p :: ps, k => (lastVal ps k).or (if p.1 = k then some p.2 else none)

/-! ## Ongoing-task limiter (scheduler.rs, `OngoingTaskLimit::add_request`) -/

/-- `MAX_PENDING_COMPACTION_TASKS`. -/
def MAX_PENDING_COMPACTION_TASKS : Nat := 1024

/-- The eviction loop of `OngoingTaskLimit::add_request`:
`while req_buf.len() >= MAX_PENDING_COMPACTION_TASKS { req_buf.pop_front(); }`.
Termination is measured by the `keys` deque, which each `pop_front` on a
non-empty deque shortens; if the deque is empty while the map is still
over the limit (a state the queue invariant rules out) the Rust loop
would spin forever, and the model returns the queue unchanged. -/
def evictLoop (q : RequestQueue K V) : RequestQueue K V :=
  if MAX_PENDING_COMPACTION_TASKS ≤ q.len then
    match h : q.keys with
    | [] => q
    | _ :: _ => evictLoop q.pop_front.2
  else q
  termination_by q.keys.length
  decreasing_by simp [RequestQueue.pop_front, h]

/-- `OngoingTaskLimit::add_request` (the queue transformation; the
dropped-count bookkeeping, gauge updates and the warning log are
observability only): evict oldest entries while at capacity, then
`push_back` the new request keyed by its table id. -/
def add_request (q : RequestQueue K V) (key : K) (req : V) : RequestQueue K V :=
  ((evictLoop q).push_back key req).1

/-! ## Periodic sweep flush selection (scheduler.rs, `ScheduleWorker::flush_tables`) -/

/-- The fields of `TableData` the flush check reads. -/
structure TableDataM where
  last_flush_time : Nat
  deriving Repr, DecidableEq

/-- The condition under which `flush_tables` calls `Instance::flush_table`
for a table: `last_flush_time + max_unflushed_duration.as_millis_u64()
> current_time_millis()` (scheduler.rs line 653). -/
def flushCondition (last_flush_time max_unflushed_duration now_ms : Nat) : Bool :=
  now_ms < last_flush_time + max_unflushed_duration

/-- `ScheduleWorker::flush_tables`, restricted to its observable
decision: which of the listed tables get a flush attempt.  (The sweep
`schedule()` first runs `compact_tables`, which enqueues a `no_waiter`
compaction request per table, and then this selection.) -/
def flush_tables (tables : List TableDataM)
    (max_unflushed_duration now_ms : Nat) : List TableDataM :=
  tables.filter (fun t => flushCondition t.last_flush_time max_unflushed_duration now_ms)

/-! ## Base64 (the `base64` crate's standard alphabet with padding),
used by the SST meta envelope.  Bytes are `Nat`s below 256; the encoded
string is its list of ASCII codes. -/

/-- Map a 6-bit value to its base64 alphabet ASCII code. -/
def b64Char (i : Nat) : Nat :=
  if i < 26 then 65 + i
  else if i < 52 then 97 + (i - 26)
  else if i < 62 then 48 + (i - 52)
  else if i = 62 then 43
  else 47

/-- Inverse of `b64Char`; `none` on a character outside the alphabet. -/
def b64Val (c : Nat) : Option Nat :=
  if 65 ≤ c ∧ c ≤ 90 then some (c - 65)
  else if 97 ≤ c ∧ c ≤ 122 then some (c - 97 + 26)
  else if 48 ≤ c ∧ c ≤ 57 then some (c - 48 + 52)
  else if c = 43 then some 62
  else if c = 47 then some 63
  else none

/-- `base64::encode` (standard alphabet, `=` padding, ASCII code 61). -/
def b64encode : List Nat → List Nat
  | [] => []
  | [b1] => [b64Char (b1 / 4), b64Char (b1 % 4 * 16), 61, 61]
  | [b1, b2] => [b64Char (b1 / 4), b64Char (b1 % 4 * 16 + b2 / 16), b64Char (b2 % 16 * 4), 61]
  | b1 :: b2 :: b3 :: rest =>
    b64Char (b1 / 4) :: b64Char (b1 % 4 * 16 + b2 / 16) ::
      b64Char (b2 % 16 * 4 + b3 / 64) :: b64Char (b3 % 64) :: b64encode rest

/-- `base64::decode` (standard alphabet, mandatory padding): groups of
four symbols, `=` padding only in the final group. -/
def b64decode : List Nat → Option (List Nat)
  | [] => some []
  | c1 :: c2 :: c3 :: c4 :: rest => do
    let v1 ← b64Val c1
    let v2 ← b64Val c2
    if c3 = 61 then
      if c4 = 61 ∧ rest = [] then
        some [v1 * 4 + v2 / 16]
      else none
    else do
      let v3 ← b64Val c3
      if c4 = 61 then
        if rest = [] then
          some [v1 * 4 + v2 / 16, v2 % 16 * 16 + v3 / 4]
        else none
      else do
        let v4 ← b64Val c4
        let tl ← b64decode rest
        some ((v1 * 4 + v2 / 16) :: (v2 % 16 * 16 + v3 / 4) :: (v3 % 4 * 64 + v4) :: tl)
  | _ => none

/-! ## SST meta envelope (encoding.rs, `encode_sst_meta_data` /
`decode_sst_meta_data`)

The envelope logic lives in encoding.rs and is embedded below.  The
protobuf layer (`SstMetaDataPb::from`, `prost::Message::{encode,decode}`,
`SstMetaData::try_from`) is not part of this repository's sources; it is
kept parametric: `fromPb`/`ser` serialize, `deser`/`tryFrom` recover.
The round-trip theorem assumes exactly the inverse properties the spec
ascribes to that layer for well-formed metadata. -/

/-- `parquet::file::metadata::KeyValue` (value bytes as ASCII codes). -/
structure KeyValue where
  key : String
  value : Option (List Nat)
  deriving Repr, DecidableEq

/-- The error kinds of encoding.rs relevant to the meta envelope. -/
inductive MetaError where
  | invalidMetaKey
  | base64MetaValueNotFound
  | invalidBase64MetaValueLen
  | decodeBase64MetaValue
  | invalidMetaValueLen
  | invalidMetaValueHeader
  | decodeFromPb
  | convertSstMetaData
  deriving Repr, DecidableEq

/-- `META_KEY`. -/
def META_KEY : String := "meta"

/-- `META_VALUE_HEADER`. -/
def META_VALUE_HEADER : Nat := 0

/-- `encode_sst_meta_data`: protobuf-serialize, prepend the `0x00`
header byte, base64-encode, store under key `"meta"`.
(`try_put_u8` into a fresh `BytesMut` and `prost` encoding into an
unbounded buffer cannot fail, so the model is total.) -/
def encode_sst_meta_data {M P : Type} (fromPb : M → P) (ser : P → List Nat)
    (meta_data : M) : KeyValue :=
  { key := META_KEY, value := some (b64encode (META_VALUE_HEADER :: ser (fromPb meta_data))) }

/-- `decode_sst_meta_data`: validate the key, require a present and
non-empty value, base64-decode it, require non-empty raw bytes, require
the `0x00` header, protobuf-decode the remainder, convert. -/
def decode_sst_meta_data {M P : Type} (deser : List Nat → Option P)
    (tryFrom : P → Option M) (kv : KeyValue) : Except MetaError M :=
  if kv.key ≠ META_KEY then .error .invalidMetaKey
  else
    match kv.value with
    | none => .error .base64MetaValueNotFound
    | some meta_value =>
      if meta_value.isEmpty then .error .invalidBase64MetaValueLen
      else
        match b64decode meta_value with
        | none => .error .decodeBase64MetaValue
        | some raw_bytes =>
          if raw_bytes.isEmpty then .error .invalidMetaValueLen
          else if raw_bytes.headD 0 ≠ META_VALUE_HEADER then .error .invalidMetaValueHeader
          else
            match deser raw_bytes.tail with
            | none => .error .decodeFromPb
            | some pb =>
              match tryFrom pb with
              | none => .error .convertSstMetaData
              | some m => .ok m

/-! ## Record encoders (encoding.rs, `ColumnarRecordEncoder`,
`HybridRecordEncoder`, `ParquetEncoder`)

A record batch is modelled as its list of rows (`List ρ`); the
`ArrowWriter` is modelled by the list of batches written to it so far.
A failed `assert!` (calling `encode`/`close` after the writer has been
taken out) and an `Err` both become `none`: either way the call is
rejected and nothing is written. -/

/-- `ColumnarRecordEncoder { arrow_writer: Option<ArrowWriter<_>>, .. }`. -/
structure ColumnarRecordEncoder (ρ : Type) where
  arrow_writer : Option (List (List ρ))
  deriving Repr, DecidableEq

/-- `ColumnarRecordEncoder::encode`: assert the writer is present,
concatenate the input batches (`compute::concat_batches`), write the one
resulting batch, return its row count. -/
def ColumnarRecordEncoder.encode (e : ColumnarRecordEncoder ρ)
    (arrow_record_batch_vec : List (List ρ)) :
    Option (ColumnarRecordEncoder ρ × Nat) :=
  match e.arrow_writer with
  | none => none
  | some w =>
    let record_batch := arrow_record_batch_vec.flatten
    some ({ arrow_writer := some (w ++ [record_batch]) }, record_batch.length)

/-- `ColumnarRecordEncoder::close`: assert the writer is present, take
it out (leaving `None` behind) and return its accumulated contents (the
file bytes are modelled by the list of written batches). -/
def ColumnarRecordEncoder.close (e : ColumnarRecordEncoder ρ) :
    Option (ColumnarRecordEncoder ρ × List (List ρ)) :=
  match e.arrow_writer with
  | none => none
  | some w => some ({ arrow_writer := none }, w)

/-- `HybridRecordEncoder`: same writer lifecycle; the hybrid conversion
`hybrid::convert_to_hybrid_record` is not under src/ and is kept
parametric (`convert`), with `none` modelling its error. -/
structure HybridRecordEncoder (ρ : Type) where
  arrow_writer : Option (List (List ρ))
  deriving Repr, DecidableEq

/-- `HybridRecordEncoder::encode`: assert the writer is present, convert
the input batches to one hybrid batch, write it, flush (one row group
per call; the flush only closes the row group and does not change the
written contents in this model), return its row count. -/
def HybridRecordEncoder.encode (convert : List (List ρ) → Option (List ρ))
    (e : HybridRecordEncoder ρ) (arrow_record_batch_vec : List (List ρ)) :
    Option (HybridRecordEncoder ρ × Nat) :=
  match e.arrow_writer with
  | none => none
  | some w =>
    match convert arrow_record_batch_vec with
    | none => none
    | some record_batch =>
      some ({ arrow_writer := some (w ++ [record_batch]) }, record_batch.length)

/-- `HybridRecordEncoder::close`: take the writer out and return its
contents. -/
def HybridRecordEncoder.close (e : HybridRecordEncoder ρ) :
    Option (HybridRecordEncoder ρ × List (List ρ)) :=
  match e.arrow_writer with
  | none => none
  | some w => some ({ arrow_writer := none }, w)

/-- `ParquetEncoder { record_encoder: Box<dyn RecordEncoder> }`, the
trait object resolved to the two implementations. -/
inductive ParquetEncoder (ρ : Type) where
  | columnar (e : ColumnarRecordEncoder ρ)
  | hybrid (e : HybridRecordEncoder ρ)
  deriving Repr, DecidableEq

/-- `ParquetEncoder::encode_record_batch`: empty input short-circuits to
`Ok(0)` without touching the record encoder; otherwise delegate. -/
def ParquetEncoder.encode_record_batch (convert : List (List ρ) → Option (List ρ))
    (pe : ParquetEncoder ρ) (arrow_record_batch_vec : List (List ρ)) :
    Option (ParquetEncoder ρ × Nat) :=
  if arrow_record_batch_vec.isEmpty then
    some (pe, 0)
  else
    match pe with
    | .columnar e =>
      match e.encode arrow_record_batch_vec with
      | none => none
      | some (e', n) => some (.columnar e', n)
    | .hybrid e =>
      match HybridRecordEncoder.encode convert e arrow_record_batch_vec with
      | none => none
      | some (e', n) => some (.hybrid e', n)

/-- `ParquetEncoder::close`: delegate to the record encoder. -/
def ParquetEncoder.close (pe : ParquetEncoder ρ) :
    Option (ParquetEncoder ρ × List (List ρ)) :=
  match pe with
  | .columnar e =>
    match e.close with
    | none => none
    | some (e', bytes) => some (.columnar e', bytes)
  | .hybrid e =>
    match e.close with
    | none => none
    | some (e', bytes) => some (.hybrid e', bytes)

/-! ## Hybrid decoder stretching (encoding.rs,
`HybridRecordDecoder::stretch_fixed_length_column` and
`HybridRecordDecoder::stretch_variable_length_column`)

An arrow array is modelled by its raw buffers: the value byte buffer
(`List Nat`, bytes), for strings additionally the decoded i32 offset
buffer (`List Int`), and the optional validity bitmap (`List Bool`,
`true` = bit set).  An `i32` is an `Int` and every `i32` operation
wraps through `wrap32`; an `i32 as usize` cast is `.emod USIZE_MOD`
then `.toNat`. -/

/-- Wrap-around of `i32` arithmetic: the representative of `x` in
`[-2^31, 2^31)`. -/
def wrap32 (x : Int) : Int := (x + 2 ^ 31) % (2 ^ 32 : Int) - 2 ^ 31

/-- Modelled from the spec: `hybrid::new_ones_buffer(values_num)`
(hybrid.rs is not under src/): the output null bitmap starts "from
all-ones of length `o_k`". -/
def new_ones_buffer (n : Nat) : List Bool := List.replicate n true

/-- `for i in 0..count { bit_util::unset_bit(null_slice, start + i) }`:
clear `count` consecutive bits beginning at `start`. -/
def unsetBits (l : List Bool) (start : Nat) : Nat → List Bool
  | 0 => l
  | c + 1 => (unsetBits l start c).set (start + c) false

/-- `(value_offsets[idx + 1] - value_offsets[idx]) as usize`: i32
subtraction then the sign-extending cast to `usize` (value-preserving
exactly when the difference is a nonnegative i32, which the
nondecreasing-offsets hypotheses of the theorems guarantee). -/
def valueNumAt (value_offsets : List Int) (idx : Nat) : Nat :=
  ((wrap32 (value_offsets.getD (idx + 1) 0 - value_offsets.getD idx 0)) % (USIZE_MOD : Int)).toNat

/-- The loop body of `stretch_fixed_length_column`: process the
physical-row indices `idxs` in order, carrying the new value buffer,
the new null buffer and `length_so_far`. -/
def stretchFixedGo (old_values_buffer : List Nat) (value_size : Nat)
    (old_null_bitmap : Option (List Bool)) (value_offsets : List Int) :
    List Nat → List Nat × List Bool × Nat → List Nat × List Bool × Nat
  | [], st => st
  | idx :: rest, (vals, nulls, length_so_far) =>
    let value_num := valueNumAt value_offsets idx
    let nulls' :=
      match old_null_bitmap with
      | some bitmap =>
        if bitmap.getD idx true then nulls
        else unsetBits nulls length_so_far value_num
      | none => nulls
    let vals' := vals ++ (List.replicate value_num
      ((old_values_buffer.drop (idx * value_size)).take value_size)).flatten
    stretchFixedGo old_values_buffer value_size old_null_bitmap value_offsets rest
      (vals', nulls', length_so_far + value_num)

/-- `HybridRecordDecoder::stretch_fixed_length_column`.  Input: the
source value buffer, the fixed value size in bytes, the source null
bitmap, `value_offsets`; output: the new value buffer and null bitmap
(the built array's length is `values_num`, the bitmap's length).
`none` models the `assert!(!value_offsets.is_empty())` panic.  The
`ArrayData::builder(..).build()` validation, whose failure becomes a
`DecodeRecordBatch` error, is not modelled.  The enumeration
`(0..old_values_buffer.len()).step_by(value_size)` runs
`⌈buffer length / value_size⌉` times. -/
def stretch_fixed_length_column (old_values_buffer : List Nat) (value_size : Nat)
    (old_null_bitmap : Option (List Bool)) (value_offsets : List Int) :
    Option (List Nat × List Bool) :=
  if value_offsets.isEmpty then none
  else
    let values_num := ((value_offsets.getLastD 0) % (USIZE_MOD : Int)).toNat
    let res := stretchFixedGo old_values_buffer value_size old_null_bitmap value_offsets
      (List.range ((old_values_buffer.length + value_size - 1) / value_size))
      ([], new_ones_buffer values_num, 0)
    some (res.1, res.2.1)

/-- The inner `for _ in 0..value_num` loop of
`stretch_variable_length_column`: repeat `value_length_so_far +=
value_len; new_offsets_buffer.push(value_length_so_far)` (i32
addition).  Returns the pushed entries and the final accumulator. -/
def pushOffsets (value_length_so_far value_len : Int) : Nat → List Int × Int
  | 0 => ([], value_length_so_far)
  | c + 1 =>
    let s := wrap32 (value_length_so_far + value_len)
    let rest := pushOffsets s value_len c
    (s :: rest.1, rest.2)

/-- The loop body of `stretch_variable_length_column`: process the
physical-row indices `idxs` in order, carrying the new offset buffer,
the new value buffer, the new null buffer, `value_length_so_far` and
`bitmap_length_so_far`.  (The first loop of the Rust function only
precomputes `value_bytes`, a buffer capacity, and is omitted.) -/
def stretchVarGo (value_slices : List Nat) (i32_offsets : List Int)
    (old_null_bitmap : Option (List Bool)) (value_offsets : List Int) :
    List Nat → List Int × List Nat × List Bool × Int × Nat →
      List Int × List Nat × List Bool × Int × Nat
  | [], st => st
  | idx :: rest, (offs, vals, nulls, value_length_so_far, bitmap_length_so_far) =>
    let prev := i32_offsets.getD idx 0
    let current := i32_offsets.getD (idx + 1) 0
    let value_len := wrap32 (current - prev)
    let value_num := valueNumAt value_offsets idx
    let nulls' :=
      match old_null_bitmap with
      | some bitmap =>
        if bitmap.getD idx true then nulls
        else unsetBits nulls bitmap_length_so_far value_num
      | none => nulls
    let vals' := vals ++ (List.replicate value_num
      ((value_slices.drop (prev % (USIZE_MOD : Int)).toNat).take
        ((current % (USIZE_MOD : Int)).toNat - (prev % (USIZE_MOD : Int)).toNat))).flatten
    let pushed := pushOffsets value_length_so_far value_len value_num
    stretchVarGo value_slices i32_offsets old_null_bitmap value_offsets rest
      (offs ++ pushed.1, vals', nulls', pushed.2, bitmap_length_so_far + value_num)

/-- `HybridRecordDecoder::stretch_variable_length_column`.  Input: the
source offset buffer decoded to i32s (`get_array_offsets` of buffer 0),
the source value bytes (buffer 1), the source null bitmap and
`value_offsets`; output: the new offset buffer, value buffer and null
bitmap (the built array's length is `values_num`).  `none` models the
`assert_eq!(array_ref.len() + 1, value_offsets.len())` panic — the
array's row count is `i32_offsets.length - 1` — and the
`value_offsets.last().unwrap()` panic on an empty slice.  The
`ArrayData::builder(..).build()` validation is again not modelled. -/
def stretch_variable_length_column (i32_offsets : List Int) (value_slices : List Nat)
    (old_null_bitmap : Option (List Bool)) (value_offsets : List Int) :
    Option (List Int × List Nat × List Bool) :=
  if i32_offsets.length ≠ value_offsets.length then none
  else if value_offsets.isEmpty then none
  else
    let values_num := ((value_offsets.getLastD 0) % (USIZE_MOD : Int)).toNat
    let res := stretchVarGo value_slices i32_offsets old_null_bitmap value_offsets
      (List.range (i32_offsets.length - 1))
      ([0], [], new_ones_buffer values_num, 0, 0)
    some (res.1, res.2.1, res.2.2.1)

/-! ## Specification-side helper functions for the stretch proofs -/

/-- Whether the source null bit of physical row `i` is unset (the
condition under which the stretch loops clear output bits). -/
def badOf (old_null_bitmap : Option (List Bool)) (i : Nat) : Bool :=
  match old_null_bitmap with
  | some bitmap => !(bitmap.getD i true)
  | none => false

/-- The null-buffer updates both stretch loops perform, in isolation:
for each index, clear `c i` bits starting at the running position when
`bad i` holds. -/
def nullsFold (bad : Nat → Bool) (c : Nat → Nat) :
    List Nat → List Bool → Nat → List Bool
  | [], nulls, _ => nulls
  | i :: rest, nulls, pos =>
    nullsFold bad c rest (if bad i then unsetBits nulls pos (c i) else nulls) (pos + c i)

/-- Whether output position `j` falls in the cleared range of some
index of `idxs`, the segments starting at `pos`. -/
def coveredBy (bad : Nat → Bool) (c : Nat → Nat) :
    List Nat → Nat → Nat → Bool
  | [], _, _ => false
  | i :: rest, pos, j =>
    (bad i && decide (pos ≤ j) && decide (j < pos + c i)) || coveredBy bad c rest (pos + c i) j

/-- Running sums (exact integer arithmetic): the sums of the non-empty
prefixes of `xs`, starting from `s`. -/
def runningSums (s : Int) : List Int → List Int
  | [] => []
  | x :: xs => (s + x) :: runningSums (s + x) xs

/-- Running sums in wrapping i32 arithmetic. -/
def runningSumsW (s : Int) : List Int → List Int
  | [] => []
  | x :: xs => wrap32 (s + x) :: runningSumsW (wrap32 (s + x)) xs

/-- The final accumulator of a wrapping running sum. -/
def runningLast (s : Int) (xs : List Int) : Int :=
  xs.foldl (fun a x => wrap32 (a + x)) s

/-! ## Theorems -/

/-! ### Association-list (HashMap model) lemmas -/

theorem alLookup_append_single (l : List (K × V)) (k k' : K) (v : V) :
    alLookup (l ++ [(k, v)]) k' = (alLookup l k').or (if k = k' then some v else none) := by
  induction l with
  | nil => by_cases h : k = k' <;> simp [alLookup, h]
  | cons p rest ih => by_cases h : p.1 = k' <;> simp [alLookup, h, ih]

theorem alLookup_replace (l : List (K × V)) (k k' : K) (v : V) :
    alLookup (l.map (fun p => if p.1 = k then (k, v) else p)) k'
      = if k' = k then (alLookup l k).map (fun _ => v) else alLookup l k' := by
  induction l with
  | nil => simp [alLookup]
  | cons p rest ih =>
    simp only [List.map_cons]
    by_cases h1 : p.1 = k
    · by_cases h2 : k' = k
      · subst h2; simp [alLookup, h1, ih]
      · have : k ≠ k' := fun hc => h2 hc.symm
        simp [alLookup, h1, this, ih, h2]
    · by_cases h3 : p.1 = k'
      · have h2 : k' ≠ k := fun hc => h1 (h3.trans hc)
        simp [alLookup, h1, h3, h2]
      · simp [alLookup, h1, h3, ih]

theorem alLookup_alInsert (l : List (K × V)) (k k' : K) (v : V) :
    alLookup (alInsert l k v) k' = if k' = k then some v else alLookup l k' := by
  unfold alInsert
  by_cases hp : (alLookup l k).isSome
  · rw [if_pos hp, alLookup_replace]
    by_cases h2 : k' = k
    · obtain ⟨w, hw⟩ := Option.isSome_iff_exists.mp hp
      simp [h2, hw]
    · simp [h2]
  · rw [if_neg hp, alLookup_append_single]
    have hnone : alLookup l k = none := Option.not_isSome_iff_eq_none.mp hp
    by_cases h2 : k' = k
    · subst h2; simp [hnone]
    · have : k ≠ k' := fun hc => h2 hc.symm
      simp [this, h2]

theorem alLookup_alRemove (l : List (K × V)) (k k' : K) :
    alLookup (alRemove l k) k' = if k' = k then none else alLookup l k' := by
  induction l with
  | nil => simp [alRemove, alLookup]
  | cons p rest ih =>
    rcases eq_or_ne p.1 k with h1 | h1
    · have hcons : alRemove (p :: rest) k = alRemove rest k := by
        simp [alRemove, List.filter_cons, h1]
      rw [hcons, ih]
      by_cases h2 : k' = k
      · simp [h2]
      · have h3 : p.1 ≠ k' := by rw [h1]; exact fun hc => h2 hc.symm
        simp [alLookup, h2, h3]
    · have hcons : alRemove (p :: rest) k = p :: alRemove rest k := by
        simp [alRemove, List.filter_cons, h1]
      rw [hcons]
      by_cases h3 : p.1 = k'
      · have h2 : k' ≠ k := fun hc => h1 (h3.trans hc)
        simp [alLookup, h3, h2]
      · simp [alLookup, h3, ih]

theorem alLookup_isSome_iff_mem (l : List (K × V)) (k : K) :
    (alLookup l k).isSome ↔ k ∈ l.map Prod.fst := by
  induction l with
  | nil => simp [alLookup]
  | cons p rest ih =>
    rcases eq_or_ne p.1 k with h | h
    · simp [alLookup, h]
    · have h' : k ≠ p.1 := fun hc => h hc.symm
      simp [alLookup, h, h', ih]

theorem alInsert_map_fst (l : List (K × V)) (k : K) (v : V) :
    (alInsert l k v).map Prod.fst
      = if (alLookup l k).isSome then l.map Prod.fst else l.map Prod.fst ++ [k] := by
  unfold alInsert
  split
  · rw [List.map_map]
    refine List.map_congr_left ?_
    intro p _
    by_cases h : p.1 = k <;> simp [h]
  · simp

theorem alInsert_length (l : List (K × V)) (k : K) (v : V) :
    (alInsert l k v).length
      = if (alLookup l k).isSome then l.length else l.length + 1 := by
  unfold alInsert
  split <;> simp

theorem alRemove_eq_self (l : List (K × V)) (k : K) (h : k ∉ l.map Prod.fst) :
    alRemove l k = l := by
  refine List.filter_eq_self.mpr ?_
  intro p hp
  have : p.1 ≠ k := fun hc => h (hc ▸ List.mem_map_of_mem Prod.fst hp)
  simpa using this

theorem alRemove_map_fst (l : List (K × V)) (k : K) :
    (alRemove l k).map Prod.fst = (l.map Prod.fst).filter (fun x => decide (x ≠ k)) := by
  induction l with
  | nil => simp [alRemove]
  | cons p rest ih =>
    by_cases h : p.1 = k <;>
      simp only [alRemove, List.filter_cons, List.map_cons] at ih ⊢ <;>
      simp [h, ih] <;>
      simpa [alRemove] using ih

theorem alRemove_length (l : List (K × V)) (k : K)
    (hnd : (l.map Prod.fst).Nodup) (hmem : k ∈ l.map Prod.fst) :
    (alRemove l k).length + 1 = l.length := by
  induction l with
  | nil => simp at hmem
  | cons p rest ih =>
    simp only [List.map_cons, List.nodup_cons] at hnd
    by_cases h : p.1 = k
    · have hnotin : k ∉ rest.map Prod.fst := h ▸ hnd.1
      have : alRemove (p :: rest) k = alRemove rest k := by
        simp [alRemove, List.filter_cons, h]
      rw [this, alRemove_eq_self rest k hnotin]
      simp
    · have hk : k ∈ rest.map Prod.fst := by
        rcases List.mem_cons.mp hmem with h' | h'
        · exact absurd h'.symm h
        · exact h'
      have : alRemove (p :: rest) k = p :: alRemove rest k := by
        simp [alRemove, List.filter_cons, h]
      rw [this]
      simp only [List.length_cons]
      rw [← ih hnd.2 hk]

/-! ### Request-queue lemmas -/

theorem push_back_keys (q : RequestQueue K V) (k : K) (v : V) :
    (q.push_back k v).1.keys
      = if (alLookup q.values k).isSome then q.keys else q.keys ++ [k] := by
  unfold RequestQueue.push_back
  split <;> simp_all

theorem push_back_values (q : RequestQueue K V) (k : K) (v : V) :
    (q.push_back k v).1.values = alInsert q.values k v := by
  unfold RequestQueue.push_back
  split <;> simp_all

theorem WF_push_back {q : RequestQueue K V} (k : K) (v : V) (hwf : q.WF) :
    ((q.push_back k v).1).WF := by
  obtain ⟨hnd, hndv, hkm, hmk⟩ := hwf
  by_cases hp : (alLookup q.values k).isSome
  · have hkeys : (q.push_back k v).1.keys = q.keys := by
      rw [push_back_keys, if_pos hp]
    have hvals : ((q.push_back k v).1.values).map Prod.fst = q.values.map Prod.fst := by
      rw [push_back_values, alInsert_map_fst, if_pos hp]
    rw [RequestQueue.WF, hkeys, hvals]
    exact ⟨hnd, hndv, hkm, hmk⟩
  · have hkeys : (q.push_back k v).1.keys = q.keys ++ [k] := by
      rw [push_back_keys, if_neg hp]
    have hvals : ((q.push_back k v).1.values).map Prod.fst = q.values.map Prod.fst ++ [k] := by
      rw [push_back_values, alInsert_map_fst, if_neg hp]
    have hkm' : k ∉ q.values.map Prod.fst := fun hc =>
      hp ((alLookup_isSome_iff_mem q.values k).mpr hc)
    have hkq : k ∉ q.keys := fun hc => hkm' (hkm k hc)
    rw [RequestQueue.WF, hkeys, hvals]
    refine ⟨?_, ?_, ?_, ?_⟩
    · exact List.Nodup.append hnd (List.nodup_singleton k)
        (by simpa [List.disjoint_singleton] using hkq)
    · exact List.Nodup.append hndv (List.nodup_singleton k)
        (by simpa [List.disjoint_singleton] using hkm')
    · intro k' hk'
      rcases List.mem_append.mp hk' with h | h
      · exact List.mem_append.mpr (Or.inl (hkm k' h))
      · exact List.mem_append.mpr (Or.inr h)
    · intro k' hk'
      rcases List.mem_append.mp hk' with h | h
      · exact List.mem_append.mpr (Or.inl (hmk k' h))
      · exact List.mem_append.mpr (Or.inr h)

theorem WF_pop_front {q : RequestQueue K V} (hwf : q.WF) :
    (q.pop_front.2).WF := by
  obtain ⟨hnd, hndv, hkm, hmk⟩ := hwf
  match hk : q.keys with
  | [] =>
    unfold RequestQueue.pop_front
    rw [hk]
    exact ⟨hnd, hndv, hkm, hmk⟩
  | k :: rest =>
    unfold RequestQueue.pop_front
    rw [hk]
    simp only
    rw [hk] at hnd
    have hnd' := List.nodup_cons.mp hnd
    refine ⟨hnd'.2, ?_, ?_, ?_⟩
    · rw [alRemove_map_fst]
      exact List.Nodup.filter _ hndv
    · intro k' hk'
      rw [alRemove_map_fst, List.mem_filter]
      have hne : k' ≠ k := fun hc => hnd'.1 (hc ▸ hk')
      exact ⟨hkm k' (hk ▸ List.mem_cons_of_mem k hk'), by simpa using hne⟩
    · intro k' hk'
      rw [alRemove_map_fst, List.mem_filter] at hk'
      have hne : k' ≠ k := by simpa using hk'.2
      have := hmk k' hk'.1
      rw [hk] at this
      rcases List.mem_cons.mp this with h | h
      · exact absurd h hne
      · exact h

theorem WF_len_eq {q : RequestQueue K V} (hwf : q.WF) :
    q.values.length = q.keys.length := by
  obtain ⟨hnd, hndv, hkm, hmk⟩ := hwf
  have hperm : (q.values.map Prod.fst).Perm q.keys := by
    refine List.perm_of_nodup_nodup_toFinset_eq hndv hnd ?_
    ext a
    simp only [List.mem_toFinset]
    exact ⟨fun h => hmk a h, fun h => hkm a h⟩
  calc q.values.length = (q.values.map Prod.fst).length := by simp
    _ = q.keys.length := hperm.length_eq

theorem pop_front_len {q : RequestQueue K V} (hwf : q.WF) (hne : q.keys ≠ []) :
    (q.pop_front.2).values.length + 1 = q.values.length := by
  match hk : q.keys with
  | [] => exact absurd hk hne
  | k :: rest =>
    unfold RequestQueue.pop_front
    rw [hk]
    simp only
    refine alRemove_length q.values k hwf.2.1 ?_
    exact hwf.2.2.1 k (hk ▸ List.mem_cons_self k rest)

/-! ### Push-sequence characterization (C3) -/

theorem pushList_char (ps : List (K × V)) :
    ∀ q : RequestQueue K V,
      (∀ k, (alLookup q.values k).isSome ↔ k ∈ q.keys) →
      ((q.pushList ps).keys = firstKeys ps q.keys ∧
        (∀ k, alLookup (q.pushList ps).values k = (lastVal ps k).or (alLookup q.values k)) ∧
        (∀ k, (alLookup (q.pushList ps).values k).isSome ↔ k ∈ (q.pushList ps).keys)) := by
  induction ps with
  | nil =>
    intro q hsync
    refine ⟨rfl, fun k => ?_, hsync⟩
    show alLookup q.values k = (lastVal [] k).or (alLookup q.values k)
    simp [lastVal]
  | cons p ps ih =>
    intro q hsync
    have hstep : q.pushList (p :: ps) = ((q.push_back p.1 p.2).1).pushList ps := rfl
    set q1 := (q.push_back p.1 p.2).1 with hq1
    have hq1values : ∀ k, alLookup q1.values k
        = if k = p.1 then some p.2 else alLookup q.values k := by
      intro k
      rw [hq1, push_back_values, alLookup_alInsert]
    have hq1keys : q1.keys = if p.1 ∈ q.keys then q.keys else q.keys ++ [p.1] := by
      rw [hq1, push_back_keys]
      by_cases h : p.1 ∈ q.keys
      · rw [if_pos ((hsync p.1).mpr h), if_pos h]
      · rw [if_neg (fun hs => h ((hsync p.1).mp hs)), if_neg h]
    have hsync1 : ∀ k, (alLookup q1.values k).isSome ↔ k ∈ q1.keys := by
      intro k
      rw [hq1values, hq1keys]
      by_cases hk : k = p.1
      · subst hk
        by_cases h : p.1 ∈ q.keys <;> simp [h]
      · by_cases h : p.1 ∈ q.keys <;> simp [hk, hsync k, h]
    obtain ⟨ihkeys, ihvals, ihsync⟩ := ih q1 hsync1
    rw [hstep]
    refine ⟨?_, ?_, ihsync⟩
    · rw [ihkeys, hq1keys]
      rfl
    · intro k
      rw [ihvals k, hq1values k]
      show _ = ((lastVal ps k).or (if p.1 = k then some p.2 else none)).or (alLookup q.values k)
      rw [Option.or_assoc]
      by_cases hk : k = p.1
      · subst hk
        simp
      · have : p.1 ≠ k := fun hc => hk hc.symm
        simp [hk, this]

theorem firstKeys_nodup (ps : List (K × V)) :
    ∀ ks : List K, ks.Nodup → (firstKeys ps ks).Nodup := by
  induction ps with
  | nil => intro ks h; exact h
  | cons p ps ih =>
    intro ks h
    unfold firstKeys
    by_cases hm : p.1 ∈ ks
    · rw [if_pos hm]; exact ih ks h
    · rw [if_neg hm]
      exact ih _ (by simpa [List.nodup_append] using ⟨h, hm⟩)

theorem popAllGo_eq_filterMap :
    ∀ (ks : List K) (vs : List (K × V)), ks.Nodup →
      (∀ k ∈ ks, (alLookup vs k).isSome) →
      popAllGo ks vs = ks.filterMap (fun k => alLookup vs k) := by
  intro ks
  induction ks with
  | nil => intro vs _ _; rfl
  | cons k rest ih =>
    intro vs hnd hsome
    have hnd' := List.nodup_cons.mp hnd
    obtain ⟨v, hv⟩ := Option.isSome_iff_exists.mp (hsome k (List.mem_cons_self k rest))
    have hrec : popAllGo rest (alRemove vs k)
        = rest.filterMap (fun k' => alLookup (alRemove vs k) k') := by
      refine ih (alRemove vs k) hnd'.2 ?_
      intro k' hk'
      rw [alLookup_alRemove, if_neg (fun hc : k' = k => hnd'.1 (hc ▸ hk'))]
      exact hsome k' (List.mem_cons_of_mem k hk')
    have hcongr : rest.filterMap (fun k' => alLookup (alRemove vs k) k')
        = rest.filterMap (fun k' => alLookup vs k') := by
      refine List.filterMap_congr ?_
      intro k' hk'
      rw [alLookup_alRemove, if_neg (fun hc : k' = k => hnd'.1 (hc ▸ hk'))]
    show popAllGo (k :: rest) vs = _
    unfold popAllGo
    rw [hv, hrec, hcongr]
    simp [List.filterMap_cons, hv]

/-- C3: for every push sequence, repeatedly popping returns, for each
distinct key in first-insertion order, the last value pushed for that
key; a `push_back` of an already-present key leaves the key order
unchanged.  Scenario S2: pushes `(1,"a"), (2,"b"), (3,"c"), (1,"a2"),
(3,"c2"), (3,"c3")` pop as `"a2", "b", "c3"`, then empty. -/
theorem C3_request_queue_dedup :
    (∀ ps : List (K × V),
      (RequestQueue.pushList RequestQueue.empty ps).popAll
        = (firstKeys ps []).filterMap (fun k => lastVal ps k)) ∧
    (∀ (q : RequestQueue K V) (k : K) (v : V),
      (q.push_back k v).1.keys
        = if (alLookup q.values k).isSome then q.keys else q.keys ++ [k]) ∧
    (RequestQueue.pushList (RequestQueue.empty : RequestQueue Nat String)
        [(1, "a"), (2, "b"), (3, "c"), (1, "a2"), (3, "c2"), (3, "c3")]).popAll
      = ["a2", "b", "c3"] := by
  refine ⟨?_, push_back_keys, by rfl⟩
  intro ps
  have hsync0 : ∀ k, (alLookup (RequestQueue.empty : RequestQueue K V).values k).isSome
      ↔ k ∈ (RequestQueue.empty : RequestQueue K V).keys := by
    intro k
    simp [RequestQueue.empty, alLookup]
  obtain ⟨hkeys, hvals, hsync⟩ := pushList_char ps RequestQueue.empty hsync0
  have hkeys' : (RequestQueue.pushList RequestQueue.empty ps).keys = firstKeys ps [] := hkeys
  have hnd : (RequestQueue.pushList RequestQueue.empty ps).keys.Nodup := by
    rw [hkeys']
    exact firstKeys_nodup ps [] List.nodup_nil
  unfold RequestQueue.popAll
  rw [popAllGo_eq_filterMap _ _ hnd (fun k hk => (hsync k).mpr hk)]
  rw [hkeys']
  refine List.filterMap_congr ?_
  intro k _
  rw [hvals k]
  simp [RequestQueue.empty, alLookup]

/-! ### Eviction bound (C8) -/

theorem evictLoop_wf_len {q : RequestQueue K V} (hwf : q.WF) :
    (evictLoop q).WF ∧ (evictLoop q).len < MAX_PENDING_COMPACTION_TASKS := by
  generalize hn : q.keys.length = n
  induction n using Nat.strong_induction_on generalizing q with
  | _ n ih =>
    rw [evictLoop]
    by_cases hc : MAX_PENDING_COMPACTION_TASKS ≤ q.len
    · rw [if_pos hc]
      match hk : q.keys with
      | [] =>
        exfalso
        have hlen := WF_len_eq hwf
        rw [hk] at hlen
        simp only [List.length_nil] at hlen
        rw [RequestQueue.len] at hc
        have hm : MAX_PENDING_COMPACTION_TASKS = 1024 := rfl
        omega
      | k :: rest =>
        have hwf' := WF_pop_front hwf
        have hkeys' : q.pop_front.2.keys = rest := by
          unfold RequestQueue.pop_front
          rw [hk]
        refine ih rest.length ?_ hwf' (by rw [hkeys'])
        rw [← hn, hk]
        simp
    · rw [if_neg hc]
      exact ⟨hwf, by omega⟩

/-- C8: after any `add_request` on a well-formed queue the queue holds
at most 1024 entries, and an `add_request` that finds the queue at the
maximum pops exactly one entry from the head (the oldest) before
inserting the new request. -/
theorem C8_add_request_bound (q : RequestQueue K V) (k : K) (v : V) (hwf : q.WF) :
    (add_request q k v).len ≤ MAX_PENDING_COMPACTION_TASKS ∧
      (add_request q k v).WF ∧
      (q.len = MAX_PENDING_COMPACTION_TASKS →
        add_request q k v = ((q.pop_front.2).push_back k v).1) := by
  obtain ⟨hwf', hlt⟩ := evictLoop_wf_len hwf
  refine ⟨?_, ?_, ?_⟩
  · show ((evictLoop q).push_back k v).1.len ≤ _
    have : ((evictLoop q).push_back k v).1.values.length
        = if (alLookup (evictLoop q).values k).isSome
          then (evictLoop q).values.length else (evictLoop q).values.length + 1 := by
      rw [push_back_values, alInsert_length]
    show ((evictLoop q).push_back k v).1.values.length ≤ _
    rw [this]
    split <;> [exact le_of_lt hlt; exact hlt]
  · exact WF_push_back k v hwf'
  · intro hmax
    show ((evictLoop q).push_back k v).1 = _
    congr 1
    have hkne : q.keys ≠ [] := by
      intro hk
      have hlen := WF_len_eq hwf
      rw [hk] at hlen
      simp only [List.length_nil] at hlen
      rw [RequestQueue.len, hlen] at hmax
      exact absurd hmax (by simp [MAX_PENDING_COMPACTION_TASKS])
    rw [evictLoop, if_pos (le_of_eq hmax.symm)]
    match hk : q.keys with
    | [] => exact absurd hk hkne
    | k0 :: rest =>
      have hlen' : q.pop_front.2.values.length + 1 = q.values.length :=
        pop_front_len hwf (by simp [hk])
      rw [evictLoop, if_neg ?_]
      rw [RequestQueue.len] at hmax
      show ¬(MAX_PENDING_COMPACTION_TASKS ≤ q.pop_front.2.values.length)
      omega

/-- C8 witness: `C8_add_request_bound` applied to the empty queue (over
`Nat` keys and `String` values), whose well-formedness is immediate. -/
theorem C8_add_request_bound_witness :
    (add_request (RequestQueue.empty : RequestQueue Nat String) 1 "a").len
      ≤ MAX_PENDING_COMPACTION_TASKS :=
  (C8_add_request_bound RequestQueue.empty 1 "a"
    ⟨List.nodup_nil, List.nodup_nil, by simp [RequestQueue.empty], by simp [RequestQueue.empty]⟩).1

/-- C1 (code bug, polarity of the periodic-flush check): the claim says
the sweep flushes exactly the tables whose `last_flush_time +
max_unflushed_duration` is not later than now.  The code's condition
(scheduler.rs line 653) is `last_flush_time + max_unflushed_duration >
now`, the exact opposite: at `last_flush_time = 10`,
`max_unflushed_duration = 50`, `now = 100000` the table is stale
(`10 + 50 ≤ 100000`) yet not flushed, while a table flushed at
`99999` is flushed. -/
theorem C1_flush_polarity_bug :
    flush_tables [⟨10⟩] 50 100000 = [] ∧ 10 + 50 ≤ 100000 ∧
      flush_tables [⟨99999⟩] 50 100000 = [⟨99999⟩] := by
  refine ⟨?_, by omega, ?_⟩ <;> rfl

/-- C2: `try_apply_token` adds first and refuses exactly when the
post-add usage strictly exceeds the limit, restoring the previous usage
on refusal; landing exactly on the limit is admitted.  Scenario S1:
`[10, 20, 90, 30]` against `limit = 100` gives `[ok, ok, refused, ok]`
and usage `0` once every returned token is dropped. -/
theorem C2_memory_try_apply (m : MemoryLimit) (bytes : Nat)
    (hu : m.usage < USIZE_MOD) (hb : bytes < USIZE_MOD) :
    ((m.try_apply_token bytes).2 = none ↔ m.limit < (m.usage + bytes) % USIZE_MOD) ∧
    ((m.try_apply_token bytes).2 = none → (m.try_apply_token bytes).1.usage = m.usage) ∧
    ((m.try_apply_token bytes).2 ≠ none →
      (m.try_apply_token bytes).1.usage = (m.usage + bytes) % USIZE_MOD) ∧
    ((m.usage + bytes) % USIZE_MOD = m.limit →
      (m.try_apply_token bytes).2 = some { applied_usage := bytes }) ∧
    ((MemoryLimit.applySeq { usage := 0, limit := 100 } [10, 20, 90, 30]).2.1
        = [true, true, false, true] ∧
      (((MemoryLimit.applySeq { usage := 0, limit := 100 } [10, 20, 90, 30]).1).dropAll
        (MemoryLimit.applySeq { usage := 0, limit := 100 } [10, 20, 90, 30]).2.2).usage = 0) := by
  refine ⟨?_, ?_, ?_, ?_, by decide⟩ <;>
    simp only [MemoryLimit.try_apply_token, MemoryLimit.apply_token,
      MemoryLimit.is_exceeded, MemoryUsageToken.drop, USIZE_MOD] at * <;>
    split_ifs with h <;>
    simp_all <;>
    omega

/-- C2 witness: the general part of `C2_memory_try_apply` applied at
`usage = 0`, `limit = 100`, `bytes = 10`. -/
theorem C2_memory_try_apply_witness :
    ((MemoryLimit.try_apply_token { usage := 0, limit := 100 } 10).2 = none ↔
      100 < (0 + 10) % USIZE_MOD) :=
  (C2_memory_try_apply { usage := 0, limit := 100 } 10 (by decide) (by decide)).1

/-- C7: a key/value pair with key `"meta"` and a present, non-empty,
base64-valid value decoding to a non-empty byte string whose first byte
is not `0x00` fails with `InvalidMetaValueHeader`. -/
theorem C7_invalid_header {M P : Type} (deser : List Nat → Option P)
    (tryFrom : P → Option M) (v raw : List Nat) (hv : v ≠ [])
    (hdec : b64decode v = some raw) (hraw : raw ≠ []) (hhead : raw.headD 0 ≠ 0) :
    decode_sst_meta_data deser tryFrom { key := "meta", value := some v }
      = .error .invalidMetaValueHeader := by
  obtain ⟨r, rest, rfl⟩ : ∃ r rest, raw = r :: rest := by
    cases raw with
    | nil => exact absurd rfl hraw
    | cons r rest => exact ⟨r, rest, rfl⟩
  simp only [List.headD_cons] at hhead
  simp only [decode_sst_meta_data, META_KEY, META_VALUE_HEADER]
  rw [if_neg (by simp), hdec]
  simp [List.isEmpty_iff, hv, hhead]

/-- C7 witness: `"AQ=="` (ASCII `[65, 81, 61, 61]`) base64-decodes to
`[0x01]`, whose header byte is not `0x00`. -/
theorem C7_invalid_header_witness :
    decode_sst_meta_data (fun _ => none) (fun _ : Nat => (none : Option Nat))
      { key := "meta", value := some [65, 81, 61, 61] }
      = .error .invalidMetaValueHeader :=
  C7_invalid_header (fun _ => none) (fun _ : Nat => (none : Option Nat))
    [65, 81, 61, 61] [1] (by decide) (by decide) (by decide) (by decide)

/-- C9: the record encoders are single-use.  After `close` succeeds the
writer has been taken out, so a further `encode` call fails its
assertion (is rejected) and writes nothing — for the columnar encoder,
the hybrid encoder (under any hybrid conversion), and through
`ParquetEncoder::encode_record_batch` for any non-empty input. -/
theorem C9_encoder_single_use :
    (∀ (ρ : Type) (e e' : ColumnarRecordEncoder ρ) (bytes : List (List ρ))
        (batches : List (List ρ)), e.close = some (e', bytes) →
      e'.encode batches = none) ∧
    (∀ (ρ : Type) (convert : List (List ρ) → Option (List ρ))
        (e e' : HybridRecordEncoder ρ) (bytes : List (List ρ))
        (batches : List (List ρ)), e.close = some (e', bytes) →
      HybridRecordEncoder.encode convert e' batches = none) ∧
    (∀ (ρ : Type) (convert : List (List ρ) → Option (List ρ))
        (pe pe' : ParquetEncoder ρ) (bytes : List (List ρ))
        (batches : List (List ρ)), pe.close = some (pe', bytes) → batches ≠ [] →
      ParquetEncoder.encode_record_batch convert pe' batches = none) := by
  refine ⟨?_, ?_, ?_⟩
  · intro ρ e e' bytes batches hclose
    match e with
    | { arrow_writer := none } => simp [ColumnarRecordEncoder.close] at hclose
    | { arrow_writer := some w } =>
      simp only [ColumnarRecordEncoder.close, Option.some.injEq, Prod.mk.injEq] at hclose
      cases hclose.1
      rfl
  · intro ρ convert e e' bytes batches hclose
    match e with
    | { arrow_writer := none } => simp [HybridRecordEncoder.close] at hclose
    | { arrow_writer := some w } =>
      simp only [HybridRecordEncoder.close, Option.some.injEq, Prod.mk.injEq] at hclose
      cases hclose.1
      rfl
  · intro ρ convert pe pe' bytes batches hclose hne
    match pe with
    | .columnar { arrow_writer := none } => simp [ParquetEncoder.close, ColumnarRecordEncoder.close] at hclose
    | .hybrid { arrow_writer := none } => simp [ParquetEncoder.close, HybridRecordEncoder.close] at hclose
    | .columnar { arrow_writer := some w } =>
      simp only [ParquetEncoder.close, ColumnarRecordEncoder.close] at hclose
      cases hclose
      simp [ParquetEncoder.encode_record_batch, ColumnarRecordEncoder.encode,
        List.isEmpty_iff, hne]
    | .hybrid { arrow_writer := some w } =>
      simp only [ParquetEncoder.close, HybridRecordEncoder.close] at hclose
      cases hclose
      simp [ParquetEncoder.encode_record_batch, HybridRecordEncoder.encode,
        List.isEmpty_iff, hne]

/-- C9 witness: a columnar encoder over `Nat` rows that has been
closed rejects a subsequent `encode`; likewise for the hybrid encoder
and the parquet encoder. -/
theorem C9_encoder_single_use_witness :
    ColumnarRecordEncoder.encode { arrow_writer := (none : Option (List (List Nat))) } [[1]]
      = none ∧
    HybridRecordEncoder.encode (fun b => some b.flatten)
      { arrow_writer := (none : Option (List (List Nat))) } [[1]] = none ∧
    ParquetEncoder.encode_record_batch (fun b => some b.flatten)
      (.columnar { arrow_writer := (none : Option (List (List Nat))) }) [[1]] = none :=
  ⟨C9_encoder_single_use.1 Nat { arrow_writer := some [] } _ [] [[1]] rfl,
   C9_encoder_single_use.2.1 Nat (fun b => some b.flatten) { arrow_writer := some [] } _ [] [[1]] rfl,
   C9_encoder_single_use.2.2 Nat (fun b => some b.flatten)
     (.columnar { arrow_writer := some [] }) _ [] [[1]] rfl (by decide)⟩

/-- C10: encoding an empty vector of record batches returns `Ok(0)` and
leaves the encoder unchanged; the underlying record encoder is not
invoked. -/
theorem C10_encode_empty_input {ρ : Type} (convert : List (List ρ) → Option (List ρ))
    (pe : ParquetEncoder ρ) :
    ParquetEncoder.encode_record_batch convert pe [] = some (pe, 0) := rfl

/-! ### Null-bitmap lemmas for the stretch proofs -/

theorem unsetBits_length (l : List Bool) (s : Nat) :
    ∀ c, (unsetBits l s c).length = l.length := by
  intro c
  induction c with
  | zero => rfl
  | succ c ih => simp [unsetBits, ih]

theorem unsetBits_getD (l : List Bool) (s j : Nat) (d : Bool) (hj : j < l.length) :
    ∀ c, (unsetBits l s c).getD j d = if s ≤ j ∧ j < s + c then false else l.getD j d := by
  intro c
  induction c with
  | zero =>
    rw [if_neg (by omega)]
    rfl
  | succ c ih =>
    show ((unsetBits l s c).set (s + c) false).getD j d = _
    rw [List.getD_eq_getElem?_getD, List.getElem?_set, unsetBits_length]
    by_cases he : s + c = j
    · rw [if_pos he, if_pos (by omega), if_pos (by omega)]
      rfl
    · rw [if_neg he, ← List.getD_eq_getElem?_getD, ih]
      by_cases hc : s ≤ j ∧ j < s + c
      · rw [if_pos hc, if_pos (by omega)]
      · rw [if_neg hc, if_neg (by omega)]

theorem nullsFold_length (bad : Nat → Bool) (c : Nat → Nat) :
    ∀ (idxs : List Nat) (nulls : List Bool) (pos : Nat),
      (nullsFold bad c idxs nulls pos).length = nulls.length := by
  intro idxs
  induction idxs with
  | nil => intro nulls pos; rfl
  | cons i rest ih =>
    intro nulls pos
    show (nullsFold bad c rest _ _).length = _
    rw [ih]
    by_cases hb : bad i
    · rw [if_pos hb, unsetBits_length]
    · rw [if_neg hb]

theorem nullsFold_getD (bad : Nat → Bool) (c : Nat → Nat) (d : Bool) :
    ∀ (idxs : List Nat) (nulls : List Bool) (pos j : Nat), j < nulls.length →
      (nullsFold bad c idxs nulls pos).getD j d
        = if coveredBy bad c idxs pos j then false else nulls.getD j d := by
  intro idxs
  induction idxs with
  | nil =>
    intro nulls pos j hj
    rw [show coveredBy bad c [] pos j = false from rfl, if_neg (by simp)]
    rfl
  | cons i rest ih =>
    intro nulls pos j hj
    by_cases hb : bad i
    · have step : nullsFold bad c (i :: rest) nulls pos
          = nullsFold bad c rest (unsetBits nulls pos (c i)) (pos + c i) := by
        show nullsFold bad c rest (if bad i then _ else _) _ = _
        rw [if_pos hb]
      rw [step, ih _ _ j (by rw [unsetBits_length]; exact hj),
        unsetBits_getD nulls pos j d hj]
      show _ = if ((bad i && decide (pos ≤ j) && decide (j < pos + c i))
          || coveredBy bad c rest (pos + c i) j) = true then false else nulls.getD j d
      by_cases hcov : coveredBy bad c rest (pos + c i) j = true
      · simp [hcov]
      · by_cases h1 : pos ≤ j <;> by_cases h2 : j < pos + c i <;>
          simp [hb, hcov, h1, h2]
    · have step : nullsFold bad c (i :: rest) nulls pos
          = nullsFold bad c rest nulls (pos + c i) := by
        show nullsFold bad c rest (if bad i then _ else _) _ = _
        rw [if_neg hb]
      rw [step, ih _ _ j hj]
      show _ = if ((bad i && decide (pos ≤ j) && decide (j < pos + c i))
          || coveredBy bad c rest (pos + c i) j) = true then false else nulls.getD j d
      simp [hb]

theorem coveredBy_lt_start (bad : Nat → Bool) (c : Nat → Nat) :
    ∀ (idxs : List Nat) (pos j : Nat), j < pos →
      coveredBy bad c idxs pos j = false := by
  intro idxs
  induction idxs with
  | nil => intro pos j _; rfl
  | cons i rest ih =>
    intro pos j hj
    show ((bad i && decide (pos ≤ j) && decide (j < pos + c i)) || coveredBy bad c rest (pos + c i) j) = false
    rw [ih _ j (by omega)]
    simp only [Bool.or_false, Bool.and_eq_true, decide_eq_true_eq]
    simp only [Bool.and_assoc, Bool.and_eq_false_iff]
    right
    simp only [Bool.and_eq_false_iff, decide_eq_false_iff_not]
    left
    omega

theorem O_mono_range (c O : Nat → Nat) (lo hi : Nat)
    (hOc : ∀ m, lo ≤ m → m < hi → O m + c m = O (m + 1)) :
    ∀ a b, lo ≤ a → a ≤ b → b ≤ hi → O a ≤ O b := by
  intro a b ha hab hb
  induction b, hab using Nat.le_induction with
  | base => exact le_refl _
  | succ b hab ih =>
    have h1 : O a ≤ O b := ih (by omega)
    have h2 : O b + c b = O (b + 1) := hOc b (by omega) (by omega)
    omega

theorem coveredBy_eq_bad (bad : Nat → Bool) (c O : Nat → Nat) :
    ∀ (k i : Nat), (∀ m, i ≤ m → m < i + k → O m + c m = O (m + 1)) →
      ∀ (t j : Nat), i ≤ t → t < i + k → O t ≤ j → j < O (t + 1) →
        coveredBy bad c (List.range' i k) (O i) j = bad t := by
  intro k
  induction k with
  | zero => intro i _ t j hit htk _ _; omega
  | succ k ih =>
    intro i hOc t j hit htk hOtj hjOt
    rw [List.range'_succ]
    show ((bad i && decide (O i ≤ j) && decide (j < O i + c i)) || coveredBy bad c (List.range' (i + 1) k) (O i + c i) j) = bad t
    have hOi : O i + c i = O (i + 1) := hOc i (le_refl i) (by omega)
    rcases eq_or_lt_of_le hit with heq | hlt
    · subst heq
      have h1 : decide (O i ≤ j) = true := by simpa using hOtj
      have h2 : decide (j < O i + c i) = true := by
        simp only [decide_eq_true_eq]
        omega
      rw [h1, h2, hOi]
      rw [coveredBy_lt_start bad c _ _ j (by omega)]
      simp
    · have hmono : O (i + 1) ≤ O t :=
        O_mono_range c O i (i + (k + 1)) hOc (i + 1) t (by omega) (by omega) (by omega)
      have h2 : decide (j < O i + c i) = false := by
        simp only [decide_eq_false_iff_not]
        omega
      rw [h2, hOi]
      simp only [Bool.and_false, Bool.false_or]
      exact ih (i + 1) (fun m hm1 hm2 => hOc m (by omega) (by omega)) t j
        (by omega) (by omega) hOtj hjOt

/-! ### Loop characterizations for the stretch proofs -/

theorem stretchFixedGo_step (ov : List Nat) (sz : Nat) (bm : Option (List Bool))
    (offs : List Int) (i : Nat) (rest : List Nat) (vals : List Nat)
    (nulls : List Bool) (pos : Nat) :
    stretchFixedGo ov sz bm offs (i :: rest) (vals, nulls, pos)
      = stretchFixedGo ov sz bm offs rest
          (vals ++ (List.replicate (valueNumAt offs i) ((ov.drop (i * sz)).take sz)).flatten,
           (if badOf bm i then unsetBits nulls pos (valueNumAt offs i) else nulls),
           pos + valueNumAt offs i) := by
  have hnulls : (match bm with
      | some bitmap => if bitmap.getD i true then nulls
          else unsetBits nulls pos (valueNumAt offs i)
      | none => nulls)
    = if badOf bm i then unsetBits nulls pos (valueNumAt offs i) else nulls := by
    cases bm with
    | none => simp [badOf]
    | some bs => cases hg : bs.getD i true <;> simp only [badOf, hg] <;> simp
  simp only [stretchFixedGo]
  rw [hnulls]

theorem stretchFixedGo_vals (ov : List Nat) (sz : Nat) (bm : Option (List Bool))
    (offs : List Int) :
    ∀ (idxs : List Nat) (vals : List Nat) (nulls : List Bool) (pos : Nat),
      (stretchFixedGo ov sz bm offs idxs (vals, nulls, pos)).1
        = vals ++ idxs.flatMap (fun i =>
            (List.replicate (valueNumAt offs i) ((ov.drop (i * sz)).take sz)).flatten) := by
  intro idxs
  induction idxs with
  | nil => intro vals nulls pos; simp [stretchFixedGo]
  | cons i rest ih =>
    intro vals nulls pos
    rw [stretchFixedGo_step, ih, List.flatMap_cons, List.append_assoc]

theorem stretchFixedGo_nulls (ov : List Nat) (sz : Nat) (bm : Option (List Bool))
    (offs : List Int) :
    ∀ (idxs : List Nat) (vals : List Nat) (nulls : List Bool) (pos : Nat),
      (stretchFixedGo ov sz bm offs idxs (vals, nulls, pos)).2.1
        = nullsFold (badOf bm) (fun i => valueNumAt offs i) idxs nulls pos := by
  intro idxs
  induction idxs with
  | nil => intro vals nulls pos; rfl
  | cons i rest ih =>
    intro vals nulls pos
    rw [stretchFixedGo_step, ih]
    rfl

theorem pushOffsets_fst (len : Int) :
    ∀ (c : Nat) (s : Int), (pushOffsets s len c).1 = runningSumsW s (List.replicate c len) := by
  intro c
  induction c with
  | zero => intro s; rfl
  | succ c ih =>
    intro s
    show wrap32 (s + len) :: (pushOffsets (wrap32 (s + len)) len c).1 = _
    rw [ih, List.replicate_succ]
    rfl

theorem pushOffsets_snd (len : Int) :
    ∀ (c : Nat) (s : Int), (pushOffsets s len c).2 = runningLast s (List.replicate c len) := by
  intro c
  induction c with
  | zero => intro s; rfl
  | succ c ih =>
    intro s
    show (pushOffsets (wrap32 (s + len)) len c).2 = _
    rw [ih, List.replicate_succ]
    rfl

theorem runningLast_append (xs ys : List Int) (s : Int) :
    runningLast s (xs ++ ys) = runningLast (runningLast s xs) ys := by
  simp [runningLast, List.foldl_append]

theorem runningSumsW_append (xs : List Int) :
    ∀ (ys : List Int) (s : Int),
      runningSumsW s (xs ++ ys) = runningSumsW s xs ++ runningSumsW (runningLast s xs) ys := by
  induction xs with
  | nil => intro ys s; rfl
  | cons x xs ih =>
    intro ys s
    show wrap32 (s + x) :: runningSumsW (wrap32 (s + x)) (xs ++ ys) = _
    rw [ih]
    rfl

theorem stretchVarGo_step (vs : List Nat) (io : List Int) (bm : Option (List Bool))
    (voffs : List Int) (i : Nat) (rest : List Nat) (offsAcc : List Int)
    (vals : List Nat) (nulls : List Bool) (sofar : Int) (blen : Nat) :
    stretchVarGo vs io bm voffs (i :: rest) (offsAcc, vals, nulls, sofar, blen)
      = stretchVarGo vs io bm voffs rest
          (offsAcc ++ runningSumsW sofar
              (List.replicate (valueNumAt voffs i) (wrap32 (io.getD (i + 1) 0 - io.getD i 0))),
           vals ++ (List.replicate (valueNumAt voffs i)
              ((vs.drop ((io.getD i 0) % (USIZE_MOD : Int)).toNat).take
                (((io.getD (i + 1) 0) % (USIZE_MOD : Int)).toNat
                  - ((io.getD i 0) % (USIZE_MOD : Int)).toNat))).flatten,
           (if badOf bm i then unsetBits nulls blen (valueNumAt voffs i) else nulls),
           runningLast sofar
              (List.replicate (valueNumAt voffs i) (wrap32 (io.getD (i + 1) 0 - io.getD i 0))),
           blen + valueNumAt voffs i) := by
  have hnulls : (match bm with
      | some bitmap => if bitmap.getD i true then nulls
          else unsetBits nulls blen (valueNumAt voffs i)
      | none => nulls)
    = if badOf bm i then unsetBits nulls blen (valueNumAt voffs i) else nulls := by
    cases bm with
    | none => simp [badOf]
    | some bs => cases hg : bs.getD i true <;> simp only [badOf, hg] <;> simp
  simp only [stretchVarGo]
  rw [hnulls, pushOffsets_fst, pushOffsets_snd]

theorem stretchVarGo_vals (vs : List Nat) (io : List Int) (bm : Option (List Bool))
    (voffs : List Int) :
    ∀ (idxs : List Nat) (offsAcc : List Int) (vals : List Nat) (nulls : List Bool)
      (sofar : Int) (blen : Nat),
      (stretchVarGo vs io bm voffs idxs (offsAcc, vals, nulls, sofar, blen)).2.1
        = vals ++ idxs.flatMap (fun i =>
            (List.replicate (valueNumAt voffs i)
              ((vs.drop ((io.getD i 0) % (USIZE_MOD : Int)).toNat).take
                (((io.getD (i + 1) 0) % (USIZE_MOD : Int)).toNat
                  - ((io.getD i 0) % (USIZE_MOD : Int)).toNat))).flatten) := by
  intro idxs
  induction idxs with
  | nil => intro offsAcc vals nulls sofar blen; simp [stretchVarGo]
  | cons i rest ih =>
    intro offsAcc vals nulls sofar blen
    rw [stretchVarGo_step, ih, List.flatMap_cons, List.append_assoc]

theorem stretchVarGo_nulls (vs : List Nat) (io : List Int) (bm : Option (List Bool))
    (voffs : List Int) :
    ∀ (idxs : List Nat) (offsAcc : List Int) (vals : List Nat) (nulls : List Bool)
      (sofar : Int) (blen : Nat),
      (stretchVarGo vs io bm voffs idxs (offsAcc, vals, nulls, sofar, blen)).2.2.1
        = nullsFold (badOf bm) (fun i => valueNumAt voffs i) idxs nulls blen := by
  intro idxs
  induction idxs with
  | nil => intro offsAcc vals nulls sofar blen; rfl
  | cons i rest ih =>
    intro offsAcc vals nulls sofar blen
    rw [stretchVarGo_step, ih]
    rfl

theorem stretchVarGo_offs (vs : List Nat) (io : List Int) (bm : Option (List Bool))
    (voffs : List Int) :
    ∀ (idxs : List Nat) (offsAcc : List Int) (vals : List Nat) (nulls : List Bool)
      (sofar : Int) (blen : Nat),
      (stretchVarGo vs io bm voffs idxs (offsAcc, vals, nulls, sofar, blen)).1
          = offsAcc ++ runningSumsW sofar (idxs.flatMap (fun m =>
              List.replicate (valueNumAt voffs m) (wrap32 (io.getD (m + 1) 0 - io.getD m 0)))) ∧
        (stretchVarGo vs io bm voffs idxs (offsAcc, vals, nulls, sofar, blen)).2.2.2.1
          = runningLast sofar (idxs.flatMap (fun m =>
              List.replicate (valueNumAt voffs m) (wrap32 (io.getD (m + 1) 0 - io.getD m 0)))) := by
  intro idxs
  induction idxs with
  | nil =>
    intro offsAcc vals nulls sofar blen
    constructor
    · show offsAcc = offsAcc ++ runningSumsW sofar []
      simp [runningSumsW]
    · rfl
  | cons i rest ih =>
    intro offsAcc vals nulls sofar blen
    rw [stretchVarGo_step]
    obtain ⟨h1, h2⟩ := ih (offsAcc ++ runningSumsW sofar
        (List.replicate (valueNumAt voffs i) (wrap32 (io.getD (i + 1) 0 - io.getD i 0))))
      (vals ++ (List.replicate (valueNumAt voffs i)
          ((vs.drop ((io.getD i 0) % (USIZE_MOD : Int)).toNat).take
            (((io.getD (i + 1) 0) % (USIZE_MOD : Int)).toNat
              - ((io.getD i 0) % (USIZE_MOD : Int)).toNat))).flatten)
      (if badOf bm i then unsetBits nulls blen (valueNumAt voffs i) else nulls)
      (runningLast sofar
        (List.replicate (valueNumAt voffs i) (wrap32 (io.getD (i + 1) 0 - io.getD i 0))))
      (blen + valueNumAt voffs i)
    rw [h1, h2, List.flatMap_cons, runningSumsW_append, runningLast_append, List.append_assoc]
    exact ⟨rfl, rfl⟩

/-! ### List-indexing helpers for the stretch proofs -/

theorem replicate_flatten_eq_flatMap {α : Type} (g : Nat → List α) (x : Nat) :
    ∀ n, (List.replicate n (g x)).flatten = (List.replicate n x).flatMap g := by
  intro n
  induction n with
  | zero => rfl
  | succ n ih => simp [List.replicate_succ, ih]

theorem flatMap_blocks_eq {α : Type} (c : Nat → Nat) (g : Nat → List α) :
    ∀ xs : List Nat,
      xs.flatMap (fun m => (List.replicate (c m) (g m)).flatten)
        = (xs.flatMap (fun m => List.replicate (c m) m)).flatMap g := by
  intro xs
  induction xs with
  | nil => rfl
  | cons x rest ih =>
    rw [List.flatMap_cons, List.flatMap_cons, List.flatMap_append, ih,
      replicate_flatten_eq_flatMap]

theorem flatMap_const_length_getD {α : Type} (g : Nat → List α) (sz : Nat) (d : α) :
    ∀ (xs : List Nat), (∀ x ∈ xs, (g x).length = sz) →
      ∀ j b, j < xs.length → b < sz →
        (xs.flatMap g).getD (j * sz + b) d = (g (xs.getD j 0)).getD b d := by
  intro xs
  induction xs with
  | nil => intro _ j b hj _; simp at hj
  | cons x rest ih =>
    intro hlen j b hj hb
    rw [List.flatMap_cons]
    match j with
    | 0 =>
      have hx : (g x).length = sz := hlen x (List.mem_cons_self x rest)
      rw [List.getD_eq_getElem?_getD, List.getElem?_append_left (by omega : 0 * sz + b < (g x).length)]
      simp [List.getD_eq_getElem?_getD]
    | j + 1 =>
      have hx : (g x).length = sz := hlen x (List.mem_cons_self x rest)
      have hidx : (j + 1) * sz + b = (g x).length + (j * sz + b) := by
        rw [hx, Nat.succ_mul]
        omega
      rw [List.getD_eq_getElem?_getD, hidx, List.getElem?_append_right (by omega),
        Nat.add_sub_cancel_left, ← List.getD_eq_getElem?_getD,
        ih (fun y hy => hlen y (List.mem_cons_of_mem x hy)) j b (by simpa using hj) hb]
      rfl

theorem flatMap_replicate_getD (c O : Nat → Nat) :
    ∀ (k i : Nat), (∀ m, i ≤ m → m < i + k → O m + c m = O (m + 1)) →
      ∀ t j, i ≤ t → t < i + k → O t ≤ j → j < O (t + 1) →
        ((List.range' i k).flatMap (fun m => List.replicate (c m) m)).getD (j - O i) 0 = t := by
  intro k
  induction k with
  | zero => intro i _ t j _ htk _ _; omega
  | succ k ih =>
    intro i hOc t j hit htk hOtj hjOt
    rw [List.range'_succ, List.flatMap_cons]
    have hOi : O i + c i = O (i + 1) := hOc i (le_refl i) (by omega)
    rcases eq_or_lt_of_le hit with heq | hlt
    · subst heq
      have hlt' : j - O i < c i := by omega
      rw [List.getD_eq_getElem?_getD, List.getElem?_append_left (by simpa using hlt')]
      simp [List.getElem?_replicate, hlt']
    · have hmono : O (i + 1) ≤ O t :=
        O_mono_range c O i (i + (k + 1)) hOc (i + 1) t (by omega) (by omega) (by omega)
      have hge : (List.replicate (c i) i).length ≤ j - O i := by
        simp only [List.length_replicate]
        omega
      rw [List.getD_eq_getElem?_getD, List.getElem?_append_right hge]
      have hidx : j - O i - (List.replicate (c i) i).length = j - O (i + 1) := by
        simp only [List.length_replicate]
        omega
      rw [hidx, ← List.getD_eq_getElem?_getD]
      exact ih (i + 1) (fun m hm1 hm2 => hOc m (by omega) (by omega)) t j
        (by omega) (by omega) hOtj hjOt

theorem sum_c_range' (c O : Nat → Nat) :
    ∀ (k i : Nat), (∀ m, i ≤ m → m < i + k → O m + c m = O (m + 1)) →
      ((List.range' i k).map c).sum = O (i + k) - O i := by
  intro k
  induction k with
  | zero => intro i _; simp
  | succ k ih =>
    intro i hOc
    rw [List.range'_succ, List.map_cons, List.sum_cons,
      ih (i + 1) (fun m hm1 hm2 => hOc m (by omega) (by omega))]
    have hOi : O i + c i = O (i + 1) := hOc i (le_refl i) (by omega)
    have hmono : O (i + 1) ≤ O (i + 1 + k) :=
      O_mono_range c O i (i + (k + 1)) hOc (i + 1) (i + 1 + k) (by omega) (by omega) (by omega)
    have : i + 1 + k = i + (k + 1) := by omega
    rw [this] at hmono ⊢
    omega

theorem length_flatMap_of_length {α : Type} (c : Nat → Nat) (g : Nat → List α) :
    ∀ (xs : List Nat), (∀ m ∈ xs, (g m).length = c m) →
      (xs.flatMap g).length = (xs.map c).sum := by
  intro xs
  induction xs with
  | nil => intro _; rfl
  | cons x rest ih =>
    intro h
    rw [List.flatMap_cons, List.length_append, List.map_cons, List.sum_cons,
      h x (List.mem_cons_self x rest), ih (fun m hm => h m (List.mem_cons_of_mem x hm))]

theorem sum_map_mul_right (c : Nat → Nat) (r : Nat) :
    ∀ xs : List Nat, (xs.map (fun m => c m * r)).sum = (xs.map c).sum * r := by
  intro xs
  induction xs with
  | nil => simp
  | cons x rest ih => simp [ih, Nat.add_mul]

theorem wrap32_eq_self (x : Int) (h0 : 0 ≤ x) (h1 : x < 2 ^ 31) : wrap32 x = x := by
  unfold wrap32
  rw [Int.emod_eq_of_lt (by omega) (by omega)]
  omega

theorem runningSums_length (xs : List Int) :
    ∀ s, (runningSums s xs).length = xs.length := by
  induction xs with
  | nil => intro s; rfl
  | cons x rest ih => intro s; simp [runningSums, ih]

theorem runningSumsW_eq (xs : List Int) :
    ∀ s, 0 ≤ s → (∀ x ∈ xs, 0 ≤ x) → s + xs.sum < 2 ^ 31 →
      runningSumsW s xs = runningSums s xs := by
  induction xs with
  | nil => intro s _ _ _; rfl
  | cons x rest ih =>
    intro s hs hx hb
    have hx0 : 0 ≤ x := hx x (List.mem_cons_self x rest)
    have hrest : 0 ≤ rest.sum := List.sum_nonneg (fun y hy => hx y (List.mem_cons_of_mem x hy))
    rw [List.sum_cons] at hb
    have hw : wrap32 (s + x) = s + x := wrap32_eq_self _ (by omega) (by omega)
    show wrap32 (s + x) :: runningSumsW (wrap32 (s + x)) rest = (s + x) :: runningSums (s + x) rest
    rw [hw, ih (s + x) (by omega) (fun y hy => hx y (List.mem_cons_of_mem x hy)) (by omega)]

theorem runningSums_getD (xs : List Int) :
    ∀ s j, j < xs.length →
      (s :: runningSums s xs).getD (j + 1) 0 = (s :: runningSums s xs).getD j 0 + xs.getD j 0 := by
  induction xs with
  | nil => intro s j hj; simp at hj
  | cons x rest ih =>
    intro s j hj
    match j with
    | 0 => rfl
    | j + 1 =>
      show ((s + x) :: runningSums (s + x) rest).getD (j + 1 + 1 - 1) 0 = _
      have := ih (s + x) j (by simpa using hj)
      simpa using this

/-- C4: on a source array of `n` fixed-size values (a byte buffer of
`n * value_size` bytes with an `n`-bit null bitmap) and i32 offsets
`[o_0, ..., o_n]` with `o_0 = 0` and nondecreasing entries,
`stretch_fixed_length_column` returns an array of length `o_n` in which
every position `j` with `o_t ≤ j < o_{t+1}` holds a copy of source
value `t`, and whose null bitmap starts as all-ones and carries, on
row `t`'s `o_{t+1} - o_t` consecutive positions, exactly the source
null bit of row `t`. -/
theorem C4_stretch_fixed_length (old_values : List Nat) (bs : List Bool) (offs : List Int)
    (value_size n : Nat) (hsz : 0 < value_size)
    (hlen : old_values.length = n * value_size)
    (hoffs : offs.length = n + 1)
    (h0 : offs.getD 0 0 = 0)
    (hmono : ∀ i, i < n → offs.getD i 0 ≤ offs.getD (i + 1) 0)
    (hbound : ∀ i, i < n + 1 → 0 ≤ offs.getD i 0 ∧ offs.getD i 0 < 2 ^ 31) :
    ∃ vals nulls,
      stretch_fixed_length_column old_values value_size (some bs) offs
          = some (vals, nulls) ∧
        nulls.length = (offs.getD n 0).toNat ∧
        vals.length = (offs.getD n 0).toNat * value_size ∧
        ∀ t, t < n → ∀ j, (offs.getD t 0).toNat ≤ j → j < (offs.getD (t + 1) 0).toNat →
          nulls.getD j true = bs.getD t true ∧
          ∀ b, b < value_size →
            vals.getD (j * value_size + b) 0 = old_values.getD (t * value_size + b) 0 := by
  have hUS : ((USIZE_MOD : Nat) : Int) = 2 ^ 64 := by norm_num [USIZE_MOD]
  have hvn : ∀ m, m < n → valueNumAt offs m
      = (offs.getD (m + 1) 0).toNat - (offs.getD m 0).toNat := by
    intro m hm
    have hb1 := hbound m (by omega)
    have hb2 := hbound (m + 1) (by omega)
    have hmo := hmono m hm
    unfold valueNumAt
    rw [wrap32_eq_self _ (by omega) (by omega), Int.emod_eq_of_lt (by omega) (by omega)]
    omega
  have hOc : ∀ m, 0 ≤ m → m < 0 + n →
      (fun m => (offs.getD m 0).toNat) m + (fun i => valueNumAt offs i) m
        = (fun m => (offs.getD m 0).toNat) (m + 1) := by
    intro m _ hm
    simp only
    rw [hvn m (by omega)]
    have hb1 := hbound m (by omega)
    have hmo := hmono m (by omega)
    omega
  have hO0 : (offs.getD 0 0).toNat = 0 := by rw [h0]; rfl
  have hne : ¬(offs.isEmpty = true) := by
    rw [List.isEmpty_iff]
    intro h
    rw [h] at hoffs
    simp at hoffs
  have hlast : (offs.getLastD 0 % (USIZE_MOD : Int)).toNat = (offs.getD n 0).toNat := by
    have hb := hbound n (by omega)
    rw [List.getLastD_eq_getLast?, List.getLast?_eq_getElem?, hoffs, Nat.add_sub_cancel,
      ← List.getD_eq_getElem?_getD, Int.emod_eq_of_lt hb.1 (by omega)]
  have hiter : (old_values.length + value_size - 1) / value_size = n := by
    rw [hlen]
    have h1 : n * value_size + value_size - 1 = (value_size - 1) + n * value_size := by omega
    rw [h1, Nat.add_mul_div_right _ _ hsz, Nat.div_eq_of_lt (by omega)]
    omega
  have hslice : ∀ m, m < n →
      ((old_values.drop (m * value_size)).take value_size).length = value_size := by
    intro m hm
    rw [List.length_take, List.length_drop, hlen]
    have h2 : (m + 1) * value_size ≤ n * value_size := Nat.mul_le_mul_right _ (by omega)
    rw [Nat.succ_mul] at h2
    omega
  unfold stretch_fixed_length_column
  rw [if_neg hne]
  rw [hiter, hlast, List.range_eq_range']
  refine ⟨_, _, rfl, ?_, ?_, ?_⟩
  · rw [stretchFixedGo_nulls, nullsFold_length, new_ones_buffer, List.length_replicate]
  · rw [stretchFixedGo_vals]
    simp only [List.nil_append]
    have hblocks : ∀ m ∈ List.range' 0 n,
        ((List.replicate (valueNumAt offs m)
          ((old_values.drop (m * value_size)).take value_size)).flatten).length
          = (fun m => valueNumAt offs m * value_size) m := by
      intro m hm
      have hmn : m < n := by
        have := (List.mem_range'_1.mp hm).2
        omega
      simp only
      rw [List.length_flatten, List.map_replicate, hslice m hmn, List.sum_replicate,
        smul_eq_mul]
    rw [length_flatMap_of_length _ _ _ hblocks, sum_map_mul_right,
      sum_c_range' (fun i => valueNumAt offs i) (fun m => (offs.getD m 0).toNat) n 0 hOc]
    simp only [Nat.zero_add, hO0, Nat.sub_zero]
  · intro t ht j hj1 hj2
    have hjO : j < (offs.getD n 0).toNat := by
      have hmn : (fun m => (offs.getD m 0).toNat) (t + 1) ≤ (fun m => (offs.getD m 0).toNat) n :=
        O_mono_range (fun i => valueNumAt offs i) (fun m => (offs.getD m 0).toNat)
          0 (0 + n) hOc (t + 1) n (by omega) (by omega) (by omega)
      simp only at hmn
      omega
    constructor
    · rw [stretchFixedGo_nulls]
      rw [nullsFold_getD _ _ _ _ _ _ j
        (by rw [new_ones_buffer, List.length_replicate]; exact hjO)]
      have hcov : coveredBy (badOf (some bs)) (fun i => valueNumAt offs i)
          (List.range' 0 n) 0 j = badOf (some bs) t := by
        have hc := coveredBy_eq_bad (badOf (some bs)) (fun i => valueNumAt offs i)
          (fun m => (offs.getD m 0).toNat) n 0 hOc t j (by omega) (by omega) hj1 hj2
        simp only [hO0] at hc
        exact hc
      rw [hcov]
      have hrepl : (new_ones_buffer ((offs.getD n 0).toNat)).getD j true = true := by
        rw [new_ones_buffer, List.getD_eq_getElem?_getD, List.getElem?_replicate,
          if_pos hjO]
        rfl
      rw [hrepl]
      cases hbt : bs.getD t true <;> simp only [badOf, hbt] <;> simp
    · intro b hb
      rw [stretchFixedGo_vals]
      simp only [List.nil_append]
      rw [flatMap_blocks_eq (fun i => valueNumAt offs i)
        (fun m => (old_values.drop (m * value_size)).take value_size)]
      have hrowlen : ((List.range' 0 n).flatMap
          (fun m => List.replicate (valueNumAt offs m) m)).length
          = (offs.getD n 0).toNat := by
        rw [length_flatMap_of_length (fun i => valueNumAt offs i) _ _
          (fun m _ => List.length_replicate _ _),
          sum_c_range' (fun i => valueNumAt offs i) (fun m => (offs.getD m 0).toNat) n 0 hOc]
        simp only [Nat.zero_add, hO0, Nat.sub_zero]
      have hmemlen : ∀ x ∈ (List.range' 0 n).flatMap
          (fun m => List.replicate (valueNumAt offs m) m),
          ((old_values.drop (x * value_size)).take value_size).length = value_size := by
        intro x hx
        obtain ⟨m, hm, hxm⟩ := List.mem_flatMap.mp hx
        have hxeq : x = m := List.eq_of_mem_replicate hxm
        have hmn : m < n := by
          have := (List.mem_range'_1.mp hm).2
          omega
        exact hxeq ▸ hslice m hmn
      rw [flatMap_const_length_getD _ value_size 0 _ hmemlen j b (by omega) hb]
      have hrow : ((List.range' 0 n).flatMap
          (fun m => List.replicate (valueNumAt offs m) m)).getD j 0 = t := by
        have hr := flatMap_replicate_getD (fun i => valueNumAt offs i)
          (fun m => (offs.getD m 0).toNat) n 0 hOc t j (by omega) (by omega) hj1 hj2
        simp only [hO0, Nat.sub_zero] at hr
        exact hr
      rw [hrow]
      rw [List.getD_eq_getElem?_getD, List.getElem?_take, if_pos hb, List.getElem?_drop,
        ← List.getD_eq_getElem?_getD]

theorem flatMap_congr_mem {α β : Type} (l : List α) (f g : α → List β)
    (h : ∀ a ∈ l, f a = g a) : l.flatMap f = l.flatMap g := by
  induction l with
  | nil => rfl
  | cons x rest ih =>
    rw [List.flatMap_cons, List.flatMap_cons, h x (List.mem_cons_self x rest),
      ih (fun a ha => h a (List.mem_cons_of_mem x ha))]

/-- C4 witness: the second test case of the Rust unit test
`stretch_int32_column` — values `[1, null, 2]` (i32 little-endian
bytes), offsets `[0, 2, 4, 5]`. -/
theorem C4_stretch_fixed_length_witness :
    ∃ vals nulls,
      stretch_fixed_length_column [1, 0, 0, 0, 0, 0, 0, 0, 2, 0, 0, 0] 4
          (some [true, false, true]) [0, 2, 4, 5] = some (vals, nulls) ∧
        nulls.length = ((([0, 2, 4, 5] : List Int).getD 3 0).toNat) ∧
        vals.length = ((([0, 2, 4, 5] : List Int).getD 3 0).toNat) * 4 ∧
        ∀ t, t < 3 → ∀ j, ((([0, 2, 4, 5] : List Int).getD t 0).toNat) ≤ j →
          j < ((([0, 2, 4, 5] : List Int).getD (t + 1) 0).toNat) →
          nulls.getD j true = ([true, false, true].getD t true) ∧
          ∀ b, b < 4 → vals.getD (j * 4 + b) 0
            = ([1, 0, 0, 0, 0, 0, 0, 0, 2, 0, 0, 0].getD (t * 4 + b) 0) :=
  C4_stretch_fixed_length [1, 0, 0, 0, 0, 0, 0, 0, 2, 0, 0, 0] [true, false, true]
    [0, 2, 4, 5] 4 3 (by decide) (by decide) (by decide) (by decide)
    (by decide) (by decide)

/-- C5: on a string source array given by i32 byte offsets
`[p_0, ..., p_n]` with `p_0 = 0`, byte buffer `vs` and null bitmap
`bs`, and offsets `[o_0, ..., o_n]` with `o_0 = 0`, both nondecreasing,
`stretch_variable_length_column` returns an array of length `o_n` whose
byte content is, for each physical row `i`, `c_i = o_{i+1} - o_i`
repetitions of `vs[p_i..p_{i+1}]`; whose new offset buffer is the
running sum (from `0`) of the per-logical-row byte lengths; and whose
nulls are replicated per logical row.  The running-sum form requires
the total output byte count to fit in an i32 (the accumulator is an
i32), which `hsum` states. -/
theorem C5_stretch_variable_length (io : List Int) (vs : List Nat) (bs : List Bool)
    (voffs : List Int) (n : Nat)
    (hio : io.length = n + 1) (hvo : voffs.length = n + 1)
    (hp0 : io.getD 0 0 = 0)
    (hpmono : ∀ i, i < n → io.getD i 0 ≤ io.getD (i + 1) 0)
    (hpbound : ∀ i, i < n + 1 → 0 ≤ io.getD i 0 ∧ io.getD i 0 < 2 ^ 31)
    (ho0 : voffs.getD 0 0 = 0)
    (homono : ∀ i, i < n → voffs.getD i 0 ≤ voffs.getD (i + 1) 0)
    (hobound : ∀ i, i < n + 1 → 0 ≤ voffs.getD i 0 ∧ voffs.getD i 0 < 2 ^ 31)
    (hsum : ((List.range n).flatMap (fun m =>
        List.replicate (valueNumAt voffs m) (io.getD (m + 1) 0 - io.getD m 0))).sum
      < 2 ^ 31) :
    ∃ newOffs newVals newNulls,
      stretch_variable_length_column io vs (some bs) voffs
          = some (newOffs, newVals, newNulls) ∧
        newNulls.length = (voffs.getD n 0).toNat ∧
        newVals = (List.range n).flatMap (fun i =>
          (List.replicate (valueNumAt voffs i)
            ((vs.drop (io.getD i 0).toNat).take
              ((io.getD (i + 1) 0).toNat - (io.getD i 0).toNat))).flatten) ∧
        newOffs = 0 :: runningSums 0 ((List.range n).flatMap (fun m =>
          List.replicate (valueNumAt voffs m) (io.getD (m + 1) 0 - io.getD m 0))) ∧
        newOffs.length = (voffs.getD n 0).toNat + 1 ∧
        newOffs.getD 0 0 = 0 ∧
        (∀ j, j < (voffs.getD n 0).toNat →
          newOffs.getD (j + 1) 0 = newOffs.getD j 0
            + ((List.range n).flatMap (fun m =>
                List.replicate (valueNumAt voffs m) (io.getD (m + 1) 0 - io.getD m 0))).getD j 0) ∧
        ∀ t, t < n → ∀ j, (voffs.getD t 0).toNat ≤ j → j < (voffs.getD (t + 1) 0).toNat →
          newNulls.getD j true = bs.getD t true := by
  have hUS : ((USIZE_MOD : Nat) : Int) = 2 ^ 64 := by norm_num [USIZE_MOD]
  have hvn : ∀ m, m < n → valueNumAt voffs m
      = (voffs.getD (m + 1) 0).toNat - (voffs.getD m 0).toNat := by
    intro m hm
    have hb1 := hobound m (by omega)
    have hb2 := hobound (m + 1) (by omega)
    have hmo := homono m hm
    unfold valueNumAt
    rw [wrap32_eq_self _ (by omega) (by omega), Int.emod_eq_of_lt (by omega) (by omega)]
    omega
  have hOc : ∀ m, 0 ≤ m → m < 0 + n →
      (fun m => (voffs.getD m 0).toNat) m + (fun i => valueNumAt voffs i) m
        = (fun m => (voffs.getD m 0).toNat) (m + 1) := by
    intro m _ hm
    simp only
    rw [hvn m (by omega)]
    have hb1 := hobound m (by omega)
    have hmo := homono m (by omega)
    omega
  have hO0 : (voffs.getD 0 0).toNat = 0 := by rw [ho0]; rfl
  have hglen : ¬(io.length ≠ voffs.length) := by rw [hio, hvo]; simp
  have hne : ¬(voffs.isEmpty = true) := by
    rw [List.isEmpty_iff]
    intro h
    rw [h] at hvo
    simp at hvo
  have hlast : (voffs.getLastD 0 % (USIZE_MOD : Int)).toNat = (voffs.getD n 0).toNat := by
    have hb := hobound n (by omega)
    rw [List.getLastD_eq_getLast?, List.getLast?_eq_getElem?, hvo, Nat.add_sub_cancel,
      ← List.getD_eq_getElem?_getD, Int.emod_eq_of_lt hb.1 (by omega)]
  have hiter : io.length - 1 = n := by omega
  -- the wrapped per-row length equals the exact difference on the used range
  have hwrap : ∀ m, m < n →
      wrap32 (io.getD (m + 1) 0 - io.getD m 0) = io.getD (m + 1) 0 - io.getD m 0 := by
    intro m hm
    have hb1 := hpbound m (by omega)
    have hb2 := hpbound (m + 1) (by omega)
    have hmo := hpmono m hm
    exact wrap32_eq_self _ (by omega) (by omega)
  rw [List.range_eq_range'] at hsum
  have hlensW : (List.range' 0 n).flatMap (fun m =>
        List.replicate (valueNumAt voffs m) (wrap32 (io.getD (m + 1) 0 - io.getD m 0)))
      = (List.range' 0 n).flatMap (fun m =>
        List.replicate (valueNumAt voffs m) (io.getD (m + 1) 0 - io.getD m 0)) := by
    refine flatMap_congr_mem _ _ _ ?_
    intro m hm
    have hmn : m < n := by
      have := (List.mem_range'_1.mp hm).2
      omega
    rw [hwrap m hmn]
  have hlens_nonneg : ∀ x ∈ (List.range' 0 n).flatMap (fun m =>
      List.replicate (valueNumAt voffs m) (io.getD (m + 1) 0 - io.getD m 0)), (0 : Int) ≤ x := by
    intro x hx
    obtain ⟨m, hm, hxm⟩ := List.mem_flatMap.mp hx
    have hxeq : x = io.getD (m + 1) 0 - io.getD m 0 := List.eq_of_mem_replicate hxm
    have hmn : m < n := by
      have := (List.mem_range'_1.mp hm).2
      omega
    have := hpmono m hmn
    omega
  have hlens_len : ((List.range' 0 n).flatMap (fun m =>
      List.replicate (valueNumAt voffs m) (io.getD (m + 1) 0 - io.getD m 0))).length
      = (voffs.getD n 0).toNat := by
    rw [length_flatMap_of_length (fun i => valueNumAt voffs i) _ _
        (fun m _ => List.length_replicate _ _),
      sum_c_range' (fun i => valueNumAt voffs i) (fun m => (voffs.getD m 0).toNat) n 0 hOc]
    simp only [Nat.zero_add, hO0, Nat.sub_zero]
  unfold stretch_variable_length_column
  rw [if_neg hglen, if_neg hne, hlast, hiter, List.range_eq_range']
  refine ⟨_, _, _, rfl, ?_, ?_, ?_, ?_, ?_, ?_, ?_⟩
  · rw [stretchVarGo_nulls, nullsFold_length, new_ones_buffer, List.length_replicate]
  · rw [stretchVarGo_vals]
    simp only [List.nil_append]
    refine flatMap_congr_mem _ _ _ ?_
    intro m hm
    have hmn : m < n := by
      have := (List.mem_range'_1.mp hm).2
      omega
    have hb1 := hpbound m (by omega)
    have hb2 := hpbound (m + 1) (by omega)
    rw [Int.emod_eq_of_lt hb1.1 (by omega), Int.emod_eq_of_lt hb2.1 (by omega)]
  · rw [(stretchVarGo_offs vs io (some bs) voffs (List.range' 0 n) [0] [] _ 0 0).1, hlensW,
      runningSumsW_eq _ 0 (le_refl 0) hlens_nonneg (by simpa using hsum)]
    rfl
  · rw [(stretchVarGo_offs vs io (some bs) voffs (List.range' 0 n) [0] [] _ 0 0).1, hlensW,
      runningSumsW_eq _ 0 (le_refl 0) hlens_nonneg (by simpa using hsum)]
    show ((0 : Int) :: runningSums 0 _).length = _
    rw [List.length_cons, runningSums_length, hlens_len]
  · rw [(stretchVarGo_offs vs io (some bs) voffs (List.range' 0 n) [0] [] _ 0 0).1, hlensW,
      runningSumsW_eq _ 0 (le_refl 0) hlens_nonneg (by simpa using hsum)]
    rfl
  · intro j hj
    rw [(stretchVarGo_offs vs io (some bs) voffs (List.range' 0 n) [0] [] _ 0 0).1, hlensW,
      runningSumsW_eq _ 0 (le_refl 0) hlens_nonneg (by simpa using hsum)]
    show ((0 : Int) :: runningSums 0 _).getD (j + 1) 0 = ((0 : Int) :: runningSums 0 _).getD j 0 + _
    exact runningSums_getD _ 0 j (by rw [hlens_len]; exact hj)
  · intro t ht j hj1 hj2
    have hjO : j < (voffs.getD n 0).toNat := by
      have hmn : (fun m => (voffs.getD m 0).toNat) (t + 1) ≤ (fun m => (voffs.getD m 0).toNat) n :=
        O_mono_range (fun i => valueNumAt voffs i) (fun m => (voffs.getD m 0).toNat)
          0 (0 + n) hOc (t + 1) n (by omega) (by omega) (by omega)
      simp only at hmn
      omega
    rw [stretchVarGo_nulls]
    rw [nullsFold_getD _ _ _ _ _ _ j
      (by rw [new_ones_buffer, List.length_replicate]; exact hjO)]
    have hcov : coveredBy (badOf (some bs)) (fun i => valueNumAt voffs i)
        (List.range' 0 n) 0 j = badOf (some bs) t := by
      have hc := coveredBy_eq_bad (badOf (some bs)) (fun i => valueNumAt voffs i)
        (fun m => (voffs.getD m 0).toNat) n 0 hOc t j (by omega) (by omega) hj1 hj2
      simp only [hO0] at hc
      exact hc
    rw [hcov]
    have hrepl : (new_ones_buffer ((voffs.getD n 0).toNat)).getD j true = true := by
      rw [new_ones_buffer, List.getD_eq_getElem?_getD, List.getElem?_replicate, if_pos hjO]
      rfl
    rw [hrepl]
    cases hbt : bs.getD t true <;> simp only [badOf, hbt] <;> simp

/-- C5 witness: the second test case of the Rust unit test
`stretch_string_column` — values `["hello", "ceresdb"]` (byte offsets
`[0, 5, 12]`), offsets `[0, 1, 3]`. -/
theorem C5_stretch_variable_length_witness :
    ∃ newOffs newVals newNulls,
      stretch_variable_length_column [0, 5, 12]
          [104, 101, 108, 108, 111, 99, 101, 114, 101, 115, 100, 98]
          (some [true, true]) [0, 1, 3] = some (newOffs, newVals, newNulls) ∧
        newNulls.length = ((([0, 1, 3] : List Int).getD 2 0).toNat) ∧
        newVals = (List.range 2).flatMap (fun i =>
          (List.replicate (valueNumAt [0, 1, 3] i)
            ((([104, 101, 108, 108, 111, 99, 101, 114, 101, 115, 100, 98] : List Nat).drop
                (([0, 5, 12] : List Int).getD i 0).toNat).take
              ((([0, 5, 12] : List Int).getD (i + 1) 0).toNat
                - (([0, 5, 12] : List Int).getD i 0).toNat))).flatten) ∧
        newOffs = 0 :: runningSums 0 ((List.range 2).flatMap (fun m =>
          List.replicate (valueNumAt [0, 1, 3] m)
            (([0, 5, 12] : List Int).getD (m + 1) 0 - ([0, 5, 12] : List Int).getD m 0))) ∧
        newOffs.length = ((([0, 1, 3] : List Int).getD 2 0).toNat) + 1 ∧
        newOffs.getD 0 0 = 0 ∧
        (∀ j, j < ((([0, 1, 3] : List Int).getD 2 0).toNat) →
          newOffs.getD (j + 1) 0 = newOffs.getD j 0
            + ((List.range 2).flatMap (fun m =>
                List.replicate (valueNumAt [0, 1, 3] m)
                  (([0, 5, 12] : List Int).getD (m + 1) 0
                    - ([0, 5, 12] : List Int).getD m 0))).getD j 0) ∧
        ∀ t, t < 2 → ∀ j, ((([0, 1, 3] : List Int).getD t 0).toNat) ≤ j →
          j < ((([0, 1, 3] : List Int).getD (t + 1) 0).toNat) →
          newNulls.getD j true = ([true, true].getD t true) :=
  C5_stretch_variable_length [0, 5, 12]
    [104, 101, 108, 108, 111, 99, 101, 114, 101, 115, 100, 98] [true, true] [0, 1, 3] 2
    (by decide) (by decide) (by decide) (by decide) (by decide) (by decide) (by decide)
    (by decide) (by decide)

/-! ### Base64 round trip (C6) -/

theorem b64Val_b64Char : ∀ i, i < 64 → b64Val (b64Char i) = some i := by decide

theorem b64Char_ne_61 : ∀ i, i < 64 → b64Char i ≠ 61 := by decide

theorem b64_roundtrip : ∀ l : List Nat, (∀ b ∈ l, b < 256) →
    b64decode (b64encode l) = some l
  | [], _ => rfl
  | [b1], h => by
    have h1 : b1 < 256 := h b1 (by simp)
    have e1 : b64Val (b64Char (b1 / 4)) = some (b1 / 4) := b64Val_b64Char _ (by omega)
    have e2 : b64Val (b64Char (b1 % 4 * 16)) = some (b1 % 4 * 16) :=
      b64Val_b64Char _ (by omega)
    show b64decode [b64Char (b1 / 4), b64Char (b1 % 4 * 16), 61, 61] = some [b1]
    simp only [b64decode, e1, e2, Option.bind_eq_bind, Option.some_bind]
    simp
    omega
  | [b1, b2], h => by
    have h1 : b1 < 256 := h b1 (by simp)
    have h2 : b2 < 256 := h b2 (by simp)
    have e1 : b64Val (b64Char (b1 / 4)) = some (b1 / 4) := b64Val_b64Char _ (by omega)
    have e2 : b64Val (b64Char (b1 % 4 * 16 + b2 / 16)) = some (b1 % 4 * 16 + b2 / 16) :=
      b64Val_b64Char _ (by omega)
    have e3 : b64Val (b64Char (b2 % 16 * 4)) = some (b2 % 16 * 4) :=
      b64Val_b64Char _ (by omega)
    have ne3 : b64Char (b2 % 16 * 4) ≠ 61 := b64Char_ne_61 _ (by omega)
    show b64decode [b64Char (b1 / 4), b64Char (b1 % 4 * 16 + b2 / 16),
      b64Char (b2 % 16 * 4), 61] = some [b1, b2]
    simp only [b64decode, e1, e2, e3, Option.bind_eq_bind, Option.some_bind]
    simp [ne3]
    omega
  | b1 :: b2 :: b3 :: rest, h => by
    have h1 : b1 < 256 := h b1 (by simp)
    have h2 : b2 < 256 := h b2 (by simp)
    have h3 : b3 < 256 := h b3 (by simp)
    have ih := b64_roundtrip rest (fun b hb => h b (by simp [hb]))
    have e1 : b64Val (b64Char (b1 / 4)) = some (b1 / 4) := b64Val_b64Char _ (by omega)
    have e2 : b64Val (b64Char (b1 % 4 * 16 + b2 / 16)) = some (b1 % 4 * 16 + b2 / 16) :=
      b64Val_b64Char _ (by omega)
    have e3 : b64Val (b64Char (b2 % 16 * 4 + b3 / 64)) = some (b2 % 16 * 4 + b3 / 64) :=
      b64Val_b64Char _ (by omega)
    have e4 : b64Val (b64Char (b3 % 64)) = some (b3 % 64) := b64Val_b64Char _ (by omega)
    have ne3 : b64Char (b2 % 16 * 4 + b3 / 64) ≠ 61 := b64Char_ne_61 _ (by omega)
    have ne4 : b64Char (b3 % 64) ≠ 61 := b64Char_ne_61 _ (by omega)
    show b64decode (b64Char (b1 / 4) :: b64Char (b1 % 4 * 16 + b2 / 16)
      :: b64Char (b2 % 16 * 4 + b3 / 64) :: b64Char (b3 % 64) :: b64encode rest)
      = some (b1 :: b2 :: b3 :: rest)
    simp only [b64decode, e1, e2, e3, e4, Option.bind_eq_bind, Option.some_bind]
    simp [ne3, ne4, ih]
    omega

theorem b64encode_ne_nil (b : Nat) (l : List Nat) : b64encode (b :: l) ≠ [] := by
  match l with
  | [] => simp [b64encode]
  | [x] => simp [b64encode]
  | x :: y :: rest => simp [b64encode]

/-- C6: decoding the key/value pair produced by encoding a well-formed
SST metadata value yields the value back.  The protobuf layer
(`SstMetaDataPb::from` / `prost` / `SstMetaData::try_from`) is not part
of this repository's sources; it is a parameter, assumed (as the spec
states for well-formed metadata) to serialize to bytes and to invert on
exactly the encoded value. -/
theorem C6_meta_roundtrip {M P : Type} (fromPb : M → P) (ser : P → List Nat)
    (deser : List Nat → Option P) (tryFrom : P → Option M) (m : M)
    (hbytes : ∀ b ∈ ser (fromPb m), b < 256)
    (hdeser : deser (ser (fromPb m)) = some (fromPb m))
    (htf : tryFrom (fromPb m) = some m) :
    decode_sst_meta_data deser tryFrom (encode_sst_meta_data fromPb ser m)
      = .ok m := by
  have hv : b64encode (0 :: ser (fromPb m)) ≠ [] := b64encode_ne_nil _ _
  have hdec : b64decode (b64encode (0 :: ser (fromPb m))) = some (0 :: ser (fromPb m)) := by
    refine b64_roundtrip _ ?_
    intro b hb
    rcases List.mem_cons.mp hb with hb' | hb'
    · omega
    · exact hbytes b hb'
  simp [decode_sst_meta_data, encode_sst_meta_data, META_KEY, META_VALUE_HEADER,
    List.isEmpty_iff, hv, hdec, hdeser, htf]

/-- C6 witness: the round trip applied to the one-byte metadata `5`
under the identity protobuf layer. -/
theorem C6_meta_roundtrip_witness :
    decode_sst_meta_data (fun l => match l with | [x] => some x | _ => none)
      (fun x : Nat => some x)
      (encode_sst_meta_data (fun x : Nat => x) (fun x => [x]) 5) = .ok 5 :=
  C6_meta_roundtrip (fun x : Nat => x) (fun x => [x])
    (fun l => match l with | [x] => some x | _ => none) (fun x => some x) 5
    (by decide) (by decide) (by decide)

end CeresDB
